import Mathlib

/-!
Verification of the strason JSON parser core (src/parser.rs).

The parser is embedded shallowly: bytes are natural numbers below 256,
the fallible byte source is a pure list of bytes (the in-memory case,
as exercised by the original test-suite through from_str), and every
loop of the source is a fueled structurally recursive function so that
concrete runs evaluate inside the kernel.  Fuel exhaustion is the
distinguished value none; with the generous fuel chosen by the
entry points it never occurs on the inputs considered here.
-/

set_option maxRecDepth 100000

/-- Error kinds, mirroring enum ErrorType of parser.rs.  Unicode wraps a
hex parse failure and Io an I/O failure in the source; their payloads are
irrelevant to the parser logic and are dropped here (the pure byte source
never raises Io). -/
inductive ErrorType where
  | Other (msg : String)
  | MissingField (name : String)
  | UnknownField (name : String)
  | ExpectedString
  | UnexpectedEOF
  | UnexpectedCharacter (c : Nat)
  | MalformedNumber
  | MalformedEscape
  | UnknownIdent
  | Unicode
  | UnpairedSurrogate
  | Io
deriving Repr, DecidableEq

/-- Positioned parse error, mirroring struct Error of parser.rs. -/
structure Error where
  line : Nat
  col : Nat
  error : ErrorType
deriving Repr, DecidableEq

/-- The stringly typed JSON tree (JsonInner in the crate).  Number holds
the exact matched text and String the decoded content, both as lists of
unicode code points (the crate uses Rust String built from chars). -/
inductive Json where
  | Null : Json
  | Bool (b : Bool) : Json
  | Number (text : List Nat) : Json
  | String (text : List Nat) : Json
  | Array (elems : List Json) : Json
  | Object (pairs : List (List Nat × Json)) : Json

/-- Parser state: the not-yet-pulled bytes of the source, the one-byte
lookahead buffer, and the 1-based line / column counters (struct Parser
of parser.rs, with the byte iterator made concrete). -/
structure PState where
  input : List Nat
  peek : Option Nat
  line : Nat
  col : Nat
deriving Repr, DecidableEq

/-- Fresh parser over a byte list (Parser::new). -/
def initState (i : List Nat) : PState := ⟨i, none, 1, 0⟩

/-- Error carrying the current position (Parser::error_at). -/
def errorAt (s : PState) (ty : ErrorType) : Error := ⟨s.line, s.col, ty⟩

/-- One pull from the cursor (the Iterator impl for Parser): take the
buffered byte if present, otherwise pull from the source, advancing the
line / column counters and buffering the pulled byte. -/
def next (s : PState) : Option Nat × PState :=
  match s.peek with
  | some ch => (some ch, { s with peek := none })
  | none =>
    match s.input with
    | [] => (none, s)
    | ch :: rest =>
      if ch = 10 then
        (some ch, ⟨rest, some ch, s.line + 1, 0⟩)
      else
        (some ch, ⟨rest, some ch, s.line, s.col + 1⟩)

/-- Parser::peek: pull via next and re-buffer the byte. -/
def peekB (s : PState) : Option Nat × PState :=
  match next s with
  | (some ch, s1) => (some ch, { s1 with peek := some ch })
  | (none, s1) => (none, s1)

/-- Parser::peek_noeof: peek, turning absence of input into UnexpectedEOF. -/
def peekNoeof (s : PState) : Except Error (Nat × PState) :=
  match peekB s with
  | (some c, s1) => .ok (c, s1)
  | (none, s1) => .error (errorAt s1 .UnexpectedEOF)

/-- Parser::eat: discard the buffered byte. -/
def eat (s : PState) : PState := { s with peek := none }

/-- Parser::eat_whitespace: eat space, newline and carriage-return bytes
until another byte (or end of input) is seen. -/
def eatWhitespace : Nat → PState → Option PState
  | 0, _ => none
  | fuel + 1, s =>
    match peekB s with
    | (some c, s1) =>
      if c = 32 ∨ c = 10 ∨ c = 13 then eatWhitespace fuel (eat s1)
      else some s1
    | (none, s1) => some s1

/-- Parser::eat_ident: consume the given literal byte for byte, failing
with UnknownIdent at the first mismatch or at end of input. -/
def eatIdent : List Nat → PState → Except Error PState
  | [], s => .ok s
  | c :: cs, s =>
    match peekB s with
    | (some d, s1) =>
      if d = c then eatIdent cs (eat s1)
      else .error (errorAt s1 .UnknownIdent)
    | (none, s1) => .error (errorAt s1 .UnknownIdent)

/-- States of the number lexer (enum State in Parser::parse_number). -/
inductive NState where
  | Start
  | ZeroStart
  | PreDecimal
  | PostDecimal
  | InExp
  | PastExp
deriving Repr, DecidableEq

/-- Outcome of feeding one byte to the number lexer: continue in a new
state (the byte is accumulated and eaten), halt the token (the byte is
left unconsumed), or fail. -/
inductive NumStep where
  | cont (st : NState)
  | halt
  | fail (e : ErrorType)
deriving Repr, DecidableEq

/-- The transition table of Parser::parse_number, byte cases in source
order: '+', '-', digits, '.', whitespace and structural delimiters,
'e' / 'E', anything else. -/
def numStep (state : NState) (c : Nat) : NumStep :=
  if c = 43 then
    if state = .InExp then .cont .PastExp
    else .fail (.UnexpectedCharacter 43)
  else if c = 45 then
    if state = .InExp then .cont .PastExp
    else if state ≠ .Start then .fail (.UnexpectedCharacter 45)
    else .cont state
  else if 48 ≤ c ∧ c ≤ 57 then
    if state = .Start then
      if c = 48 then .cont .ZeroStart else .cont .PreDecimal
    else if state = .ZeroStart then .fail .MalformedNumber
    else .cont state
  else if c = 46 then
    if state = .PreDecimal ∨ state = .ZeroStart then .cont .PostDecimal
    else .fail .MalformedNumber
  else if c = 32 ∨ c = 13 ∨ c = 10 ∨ c = 125 ∨ c = 93 ∨ c = 44 ∨ c = 58 then
    .halt
  else if c = 101 ∨ c = 69 then
    if state = .ZeroStart ∨ state = .PreDecimal ∨ state = .PostDecimal then .cont .InExp
    else .fail .MalformedNumber
  else .fail (.UnexpectedCharacter c)

/-- The while-let loop of Parser::parse_number together with the final
state check: on end of input or a halting byte, state Start means
MalformedNumber, anything else returns the accumulated text. -/
def parseNumberLoop : Nat → List Nat → NState → PState → Option (Except Error (List Nat × PState))
  | 0, _, _, _ => none
  | fuel + 1, ret, state, s =>
    match peekB s with
    | (none, s1) =>
      if state = .Start then some (.error (errorAt s1 .MalformedNumber))
      else some (.ok (ret, s1))
    | (some c, s1) =>
      match numStep state c with
      | .fail e => some (.error (errorAt s1 e))
      | .halt =>
        if state = .Start then some (.error (errorAt s1 .MalformedNumber))
        else some (.ok (ret, s1))
      | .cont st => parseNumberLoop fuel (ret ++ [c]) st (eat s1)

/-- States of the string lexer (enum State in Parser::parse_string). -/
inductive SState where
  | Start
  | Scanning
  | Escaping
  | Done
deriving Repr, DecidableEq

/-- Value of a hex digit byte, as accepted by u16::from_str_radix. -/
def hexDigitVal (c : Nat) : Option Nat :=
  if 48 ≤ c ∧ c ≤ 57 then some (c - 48)
  else if 97 ≤ c ∧ c ≤ 102 then some (c - 87)
  else if 65 ≤ c ∧ c ≤ 70 then some (c - 55)
  else none

/-- Accumulate hex digits left to right. -/
def hexValAux : Nat → List Nat → Option Nat
  | acc, [] => some acc
  | acc, c :: cs =>
    match hexDigitVal c with
    | none => none
    | some d => hexValAux (acc * 16 + d) cs

/-- Models u16::from_str_radix(text, 16) on the 4-character groups read
by the unicode-escape sub-loop: an optional leading sign followed by hex
digits; a '-' sign succeeds only when the value is zero (no overflow is
possible since four hex digits fit in sixteen bits). -/
def fromStrRadix16 : List Nat → Option Nat
  | [] => none
  | 43 :: rest => if rest.isEmpty then none else hexValAux 0 rest
  | 45 :: rest =>
    if rest.isEmpty then none
    else
      match hexValAux 0 rest with
      | some 0 => some 0
      | _ => none
  | cs => hexValAux 0 cs

/-- Standard UTF-16 decoding of a run of code units to scalar values,
as performed by char::decode_utf16 in the source; the parser aborts at
the first unpaired surrogate, which is none here. -/
def decodeUtf16 : List Nat → Option (List Nat)
  | [] => some []
  | [u] => if u < 0xD800 ∨ 0xE000 ≤ u then some [u] else none
  | u :: v :: rest =>
    if u < 0xD800 ∨ 0xE000 ≤ u then
      (decodeUtf16 (v :: rest)).map (fun l => u :: l)
    else if u < 0xDC00 then
      if 0xDC00 ≤ v ∧ v < 0xE000 then
        (decodeUtf16 rest).map (fun l => (0x10000 + (u - 0xD800) * 0x400 + (v - 0xDC00)) :: l)
      else none
    else none

/-- Read one byte for a hex group: peek_noeof then eat. -/
def readHexChar (s : PState) : Except Error (Nat × PState) :=
  match peekNoeof s with
  | .error e => .error e
  | .ok (c, s1) => .ok (c, eat s1)

/-- The unicode sub-loop of Parser::parse_string: entered with the 'u'
selector byte buffered; each round eats it, reads four hex characters,
parses them as one UTF-16 code unit (failure is a Unicode error at the
current position), and looks ahead for a following backslash-u pair to
continue; on exit it reports the accumulated units and the state the
outer scanner resumes in. -/
def uLoop : Nat → List Nat → PState → Option (Except Error (List Nat × SState × PState))
  | 0, _, _ => none
  | fuel + 1, acc, s =>
    let s0 := eat s
    match readHexChar s0 with
    | .error e => some (.error e)
    | .ok (c1, s1) =>
      match readHexChar s1 with
      | .error e => some (.error e)
      | .ok (c2, s2) =>
        match readHexChar s2 with
        | .error e => some (.error e)
        | .ok (c3, s3) =>
          match readHexChar s3 with
          | .error e => some (.error e)
          | .ok (c4, s4) =>
            match fromStrRadix16 [c1, c2, c3, c4] with
            | none => some (.error (errorAt s4 .Unicode))
            | some u =>
              match peekB s4 with
              | (p5, s5) =>
                if p5 = some 92 then
                  match peekB (eat s5) with
                  | (p7, s7) =>
                    if p7 ≠ some 117 then some (.ok (acc ++ [u], SState.Escaping, s7))
                    else uLoop fuel (acc ++ [u]) s7
                else some (.ok (acc ++ [u], SState.Scanning, s5))

/-- The while-let loop of Parser::parse_string with its final check:
ordinary bytes are appended verbatim while Scanning, a backslash enters
Escaping, the escape selector is decoded (b to 7, f to 12, n to LF, r to
CR, t to TAB, slash to slash, quote and backslash to themselves, u to
the unicode sub-loop, anything else MalformedEscape), a quote while
Scanning finishes, and end of input before that is UnexpectedEOF.  The
unreachable Done arms of the source are modelled as none. -/
def parseStringLoop : Nat → List Nat → SState → PState → Option (Except Error (List Nat × PState))
  | 0, _, _, _ => none
  | fuel + 1, ret, state, s =>
    match peekB s with
    | (none, s1) =>
      match state with
      | .Done => none
      | _ => some (.error (errorAt s1 .UnexpectedEOF))
    | (some c, s1) =>
      if c = 34 then
        match state with
        | .Start => parseStringLoop fuel ret .Scanning (eat s1)
        | .Scanning => some (.ok (ret, eat s1))
        | .Escaping => parseStringLoop fuel (ret ++ [34]) .Scanning (eat s1)
        | .Done => none
      else if c = 92 then
        match state with
        | .Start => some (.error (errorAt s1 .ExpectedString))
        | .Scanning => parseStringLoop fuel ret .Escaping (eat s1)
        | .Escaping => parseStringLoop fuel (ret ++ [92]) .Scanning (eat s1)
        | .Done => none
      else
        match state with
        | .Start => some (.error (errorAt s1 .ExpectedString))
        | .Scanning => parseStringLoop fuel (ret ++ [c]) .Scanning (eat s1)
        | .Escaping =>
          if c = 98 then parseStringLoop fuel (ret ++ [7]) .Scanning (eat s1)
          else if c = 102 then parseStringLoop fuel (ret ++ [12]) .Scanning (eat s1)
          else if c = 110 then parseStringLoop fuel (ret ++ [10]) .Scanning (eat s1)
          else if c = 114 then parseStringLoop fuel (ret ++ [13]) .Scanning (eat s1)
          else if c = 116 then parseStringLoop fuel (ret ++ [9]) .Scanning (eat s1)
          else if c = 47 then parseStringLoop fuel (ret ++ [47]) .Scanning (eat s1)
          else if c = 117 then
            match uLoop fuel [] s1 with
            | none => none
            | some (.error e) => some (.error e)
            | some (.ok (units, st2, s2)) =>
              match decodeUtf16 units with
              | none => some (.error (errorAt s2 .UnpairedSurrogate))
              | some chars => parseStringLoop fuel (ret ++ chars) st2 s2
          else some (.error (errorAt s1 .MalformedEscape))
        | .Done => none

/-- Requests of the recursive-descent core: parse one value, or resume
the array / object loop of Parser::parse with the entries gathered so
far.  The three bodies of the source are packed into one fueled function
so that the mutual recursion stays structural. -/
inductive PReq where
  | val
  | arrLoop (ret : List Json)
  | objLoop (ret : List (List Nat × Json))

/-- Parser::parse together with its array and object loops.  The value
case skips whitespace and dispatches on the first byte: n / t / f eat
the corresponding literal, '-' or a digit runs the number lexer, quote
or apostrophe runs the string lexer, '[' and '{' enter the loops, and
anything else (or end of input) fails.  The loops mirror the source:
skip whitespace, special-case an immediately closing bracket only while
the collected list is still empty, parse an element (for objects a
string key, a ':' separator, then a value), and continue on ',' or stop
on the closing bracket. -/
def parseCore : Nat → PReq → PState → Option (Except Error (Json × PState))
  | 0, _, _ => none
  | fuel + 1, .val, s =>
    match eatWhitespace fuel s with
    | none => none
    | some s1 =>
      match peekB s1 with
      | (none, s2) => some (.error (errorAt s2 .UnexpectedEOF))
      | (some c, s2) =>
        if c = 110 then
          match eatIdent [110, 117, 108, 108] s2 with
          | .error e => some (.error e)
          | .ok s3 => some (.ok (Json.Null, s3))
        else if c = 116 then
          match eatIdent [116, 114, 117, 101] s2 with
          | .error e => some (.error e)
          | .ok s3 => some (.ok (Json.Bool true, s3))
        else if c = 102 then
          match eatIdent [102, 97, 108, 115, 101] s2 with
          | .error e => some (.error e)
          | .ok s3 => some (.ok (Json.Bool false, s3))
        else if c = 45 ∨ (48 ≤ c ∧ c ≤ 57) then
          match parseNumberLoop fuel [] .Start s2 with
          | none => none
          | some (.error e) => some (.error e)
          | some (.ok (t, s3)) => some (.ok (Json.Number t, s3))
        else if c = 34 ∨ c = 39 then
          match parseStringLoop fuel [] .Start s2 with
          | none => none
          | some (.error e) => some (.error e)
          | some (.ok (t, s3)) => some (.ok (Json.String t, s3))
        else if c = 91 then
          parseCore fuel (.arrLoop []) (eat s2)
        else if c = 123 then
          parseCore fuel (.objLoop []) (eat s2)
        else some (.error (errorAt s2 .UnknownIdent))
  | fuel + 1, .arrLoop ret, s =>
    match eatWhitespace fuel s with
    | none => none
    | some s1 =>
      let cond : Except Error (Bool × PState) :=
        if ret.isEmpty then
          match peekNoeof s1 with
          | .error e => .error e
          | .ok (c, s2) => .ok (c = 93, s2)
        else .ok (false, s1)
      match cond with
      | .error e => some (.error e)
      | .ok (skip, s2) =>
        let afterVal : Option (Except Error (List Json × PState)) :=
          if skip then some (.ok (ret, s2))
          else
            match parseCore fuel .val s2 with
            | none => none
            | some (.error e) => some (.error e)
            | some (.ok (v, s3)) =>
              match eatWhitespace fuel s3 with
              | none => none
              | some s4 => some (.ok (ret ++ [v], s4))
        match afterVal with
        | none => none
        | some (.error e) => some (.error e)
        | some (.ok (ret2, s5)) =>
          match peekNoeof s5 with
          | .error e => some (.error e)
          | .ok (c2, s6) =>
            if c2 = 44 then parseCore fuel (.arrLoop ret2) (eat s6)
            else if c2 = 93 then some (.ok (Json.Array ret2, eat s6))
            else some (.error (errorAt s6 .UnknownIdent))
  | fuel + 1, .objLoop ret, s =>
    match eatWhitespace fuel s with
    | none => none
    | some s1 =>
      let cond : Except Error (Bool × PState) :=
        if ret.isEmpty then
          match peekNoeof s1 with
          | .error e => .error e
          | .ok (c, s2) => .ok (c = 125, s2)
        else .ok (false, s1)
      match cond with
      | .error e => some (.error e)
      | .ok (true, s2) => some (.ok (Json.Object ret, eat s2))
      | .ok (false, s2) =>
        match parseStringLoop fuel [] .Start s2 with
        | none => none
        | some (.error e) => some (.error e)
        | some (.ok (key, s3)) =>
          match eatWhitespace fuel s3 with
          | none => none
          | some s4 =>
            match peekNoeof s4 with
            | .error e => some (.error e)
            | .ok (sep, s5) =>
              if sep = 58 then
                match eatWhitespace fuel (eat s5) with
                | none => none
                | some s6 =>
                  match parseCore fuel .val s6 with
                  | none => none
                  | some (.error e) => some (.error e)
                  | some (.ok (v, s7)) =>
                    match eatWhitespace fuel s7 with
                    | none => none
                    | some s8 =>
                      match peekNoeof s8 with
                      | .error e => some (.error e)
                      | .ok (c2, s9) =>
                        if c2 = 44 then parseCore fuel (.objLoop (ret ++ [(key, v)])) (eat s9)
                        else if c2 = 125 then some (.ok (Json.Object (ret ++ [(key, v)]), eat s9))
                        else some (.error (errorAt s9 (.UnexpectedCharacter c2)))
              else some (.error (errorAt s5 (.UnexpectedCharacter sep)))

/-- Parse one JSON value from a byte list (Json::from_str over the byte
source), with fuel generous enough for the whole input. -/
def jsonFromBytes (i : List Nat) : Option (Except Error (Json × PState)) :=
  parseCore (2 * i.length + 8) .val (initState i)

/-- Result tree of a parse, final parser state dropped. -/
def jsonOf (i : List Nat) : Option (Except Error Json) :=
  match jsonFromBytes i with
  | none => none
  | some (.error e) => some (.error e)
  | some (.ok (j, _)) => some (.ok j)

/-- Run the number lexer alone on a byte list. -/
def numLexFull (i : List Nat) : Option (Except Error (List Nat × PState)) :=
  parseNumberLoop (i.length + 2) [] .Start (initState i)

/-- Text returned by a standalone run of the number lexer. -/
def numLex (i : List Nat) : Option (Except Error (List Nat)) :=
  match numLexFull i with
  | none => none
  | some (.error e) => some (.error e)
  | some (.ok (t, _)) => some (.ok t)

/-- Bytes buffered in the lookahead, as a list. -/
def peekList : Option Nat → List Nat
  | none => []
  | some c => [c]

/-- All bytes the parser has not yet consumed: the buffered byte, if
any, followed by the not-yet-pulled input. -/
def remaining (s : PState) : List Nat := peekList s.peek ++ s.input

/-- Append further bytes to the pending input of a parser state. -/
def extendInput (s : PState) (j : List Nat) : PState := { s with input := s.input ++ j }

/-- Whitespace bytes recognised by eat_whitespace. -/
def wsBytes : List Nat := [32, 10, 13]

/-- Bytes that end a number token without being consumed. -/
def delimBytes : List Nat := [32, 13, 10, 125, 93, 44, 58]

/-- Digit bytes. -/
def isDigit (c : Nat) : Prop := 48 ≤ c ∧ c ≤ 57

instance (c : Nat) : Decidable (isDigit c) := by unfold isDigit; infer_instance

/-- Modelled from the spec: the JSON number grammar, used to state the
round-trip claim of §8 — an optional minus sign, an integer part that is
either a single zero or a nonzero digit followed by digits, an optional
fraction of a dot followed by at least one digit, and an optional
exponent of e or E, an optional sign and at least one digit. -/
def jsonNumberGrammar (w : List Nat) : Prop :=
  ∃ sign intp frac expp,
    w = sign ++ intp ++ frac ++ expp ∧
    (sign = [] ∨ sign = [45]) ∧
    ((intp = [48]) ∨ (∃ d ds, intp = d :: ds ∧ 49 ≤ d ∧ d ≤ 57 ∧ ∀ c ∈ ds, isDigit c)) ∧
    (frac = [] ∨ (∃ ds, frac = 46 :: ds ∧ ds ≠ [] ∧ ∀ c ∈ ds, isDigit c)) ∧
    (expp = [] ∨ (∃ e sg ds, expp = e :: (sg ++ ds) ∧ (e = 101 ∨ e = 69) ∧
      (sg = [] ∨ sg = [43] ∨ sg = [45]) ∧ ds ≠ [] ∧ ∀ c ∈ ds, isDigit c))

/-- Fold the number transition table over a byte list, none as soon as
a byte halts or fails. -/
def foldNum : NState → List Nat → Option NState
  | st, [] => some st
  | st, c :: cs =>
    match numStep st c with
    | .cont st2 => foldNum st2 cs
    | _ => none

/-- A UTF-16 code-unit run in which every surrogate occurs as a high
surrogate immediately followed by a low surrogate: precisely the runs
standard UTF-16 decoding is meant to accept, stated as a grammar
independent of the decoder.  A run outside this grammar is exactly a
run containing an unpaired surrogate somewhere. -/
inductive PairedRun : List Nat → Prop where
  | nil : PairedRun []
  | scalar (u : Nat) (rest : List Nat) :
      u < 0xD800 ∨ 0xE000 ≤ u → PairedRun rest → PairedRun (u :: rest)
  | pair (u v : Nat) (rest : List Nat) :
      0xD800 ≤ u → u < 0xDC00 → 0xDC00 ≤ v → v < 0xE000 → PairedRun rest →
      PairedRun (u :: v :: rest)

/-! ### Basic cursor lemmas -/

theorem peekB_some_peek {s s1 : PState} {c : Nat} (h : peekB s = (some c, s1)) :
    s1.peek = some c := by
  unfold peekB next at h
  rcases s with ⟨inp, pk, l, co⟩
  cases pk with
  | some ch => simp at h; rcases h with ⟨h1, h2⟩; subst h1; subst h2; rfl
  | none =>
    cases inp with
    | nil => simp at h
    | cons b rest =>
      by_cases hb : b = 10 <;> simp [hb] at h <;>
        (rcases h with ⟨h1, h2⟩; subst h1; subst h2; rfl)

theorem peekB_of_peek {s : PState} {c : Nat} (h : s.peek = some c) :
    peekB s = (some c, s) := by
  rcases s with ⟨inp, pk, l, co⟩
  cases pk with
  | some ch =>
    simp at h
    subst h
    rfl
  | none => simp at h

theorem peekB_idem {s s1 : PState} {c : Nat} (h : peekB s = (some c, s1)) :
    peekB s1 = (some c, s1) :=
  peekB_of_peek (peekB_some_peek h)

/-! ### Number transition facts -/

theorem numStep_halt_of_delim {c : Nat} (h : c ∈ delimBytes) (st : NState) :
    numStep st c = .halt := by
  simp only [delimBytes, List.mem_cons, List.not_mem_nil, or_false] at h
  rcases h with rfl | rfl | rfl | rfl | rfl | rfl | rfl <;> rfl

theorem numStep_zeroStart_digit {c : Nat} (h1 : 48 ≤ c) (h2 : c ≤ 57) :
    numStep .ZeroStart c = .fail .MalformedNumber := by
  unfold numStep
  rw [if_neg (by omega), if_neg (by omega), if_pos (by omega)]
  rfl

theorem parseNumberLoop_fail {fuel : Nat} {ret : List Nat} {st : NState} {s s1 : PState}
    {c : Nat} {e : ErrorType} (hp : peekB s = (some c, s1)) (hs : numStep st c = .fail e) :
    parseNumberLoop (fuel + 1) ret st s = some (.error (errorAt s1 e)) := by
  unfold parseNumberLoop
  rw [hp]
  dsimp only
  rw [hs]

theorem parseNumberLoop_eoi {fuel : Nat} {ret : List Nat} {st : NState} {s s1 : PState}
    (hp : peekB s = (none, s1)) (hs : st ≠ .Start) :
    parseNumberLoop (fuel + 1) ret st s = some (.ok (ret, s1)) := by
  unfold parseNumberLoop
  rw [hp]
  dsimp only
  rw [if_neg hs]

theorem parseNumberLoop_halt {fuel : Nat} {ret : List Nat} {st : NState} {s s1 : PState}
    {c : Nat} (hp : peekB s = (some c, s1)) (hc : c ∈ delimBytes) (hs : st ≠ .Start) :
    parseNumberLoop (fuel + 1) ret st s = some (.ok (ret, s1)) := by
  unfold parseNumberLoop
  rw [hp]
  dsimp only
  rw [numStep_halt_of_delim hc]
  dsimp only
  rw [if_neg hs]

/-- C2: the claim that a sign byte is legal only at Start or leaving
InExp — and in particular that a second consecutive leading sign is not
legal — fails on the code: consuming a minus at Start leaves the state
at Start, so the lexer accepts the input consisting of minus, minus, 1
and returns its text, and the whole parser yields it as a Number. -/
theorem c2_second_sign_accepted :
    numLex [45, 45, 49] = some (.ok [45, 45, 49]) ∧
    jsonOf [45, 45, 49] = some (.ok (Json.Number [45, 45, 49])) :=
  ⟨rfl, rfl⟩

/-- C2 (amended): a plus byte is legal only at InExp, where it moves to
PastExp, and fails with UnexpectedCharacter 43 everywhere else, at Start
included; a minus byte is legal at InExp, moving to PastExp, and at
Start, where the state stays Start — so repeated leading minus bytes are
each individually legal — and fails with UnexpectedCharacter 45 in every
other state; the loop reports any such failure positioned at the
offending byte. -/
theorem c2_sign_legality :
    (∀ st : NState, numStep st 43 =
      if st = .InExp then .cont .PastExp else .fail (.UnexpectedCharacter 43)) ∧
    (∀ st : NState, numStep st 45 =
      if st = .InExp then .cont .PastExp
      else if st = .Start then .cont .Start
      else .fail (.UnexpectedCharacter 45)) ∧
    (∀ (fuel : Nat) (ret : List Nat) (st : NState) (s s1 : PState) (c : Nat) (e : ErrorType),
      peekB s = (some c, s1) → numStep st c = .fail e →
      parseNumberLoop (fuel + 1) ret st s = some (.error (errorAt s1 e))) := by
  refine ⟨?_, ?_, ?_⟩
  · intro st; cases st <;> rfl
  · intro st; cases st <;> rfl
  · intro fuel ret st s s1 c e hp hs
    exact parseNumberLoop_fail hp hs

/-- Witness for C2 (amended): a plus byte seen by the lexer in state
PreDecimal — as after the input 1 0 — makes the loop fail with
UnexpectedCharacter 43 at the position of the plus byte. -/
theorem c2_sign_legality_witness :
    parseNumberLoop 1 [49, 48] .PreDecimal (initState [43]) =
      some (.error (errorAt ⟨[], some 43, 1, 1⟩ (.UnexpectedCharacter 43))) :=
  c2_sign_legality.2.2 0 [49, 48] .PreDecimal (initState [43]) ⟨[], some 43, 1, 1⟩ 43
    (.UnexpectedCharacter 43) rfl rfl

/-- C3: parsing the input 1 0 + 5 fails with the error positioned at
line 1, column 3, the position of the plus byte, carrying
UnexpectedCharacter 43; and the position of a byte is charged when it is
first pulled: peeking an already-buffered byte returns the same byte and
leaves the state — counters included — unchanged, no matter how often it
is repeated. -/
theorem c3_error_position :
    jsonOf [49, 48, 43, 53] = some (.error ⟨1, 3, .UnexpectedCharacter 43⟩) ∧
    ∀ (s s1 : PState) (c : Nat), peekB s = (some c, s1) → peekB s1 = (some c, s1) :=
  ⟨rfl, fun _ _ _ h => peekB_idem h⟩

/-- Witness for C3: peeking the first byte of the input 4 3 buffers it
at line 1 column 1, and peeking again returns the same byte with the
state unchanged. -/
theorem c3_error_position_witness :
    peekB (initState [43]) = (some 43, ⟨[], some 43, 1, 1⟩) ∧
    peekB ⟨[], some 43, 1, 1⟩ = (some 43, ⟨[], some 43, 1, 1⟩) :=
  ⟨rfl, c3_error_position.2 (initState [43]) ⟨[], some 43, 1, 1⟩ 43 rfl⟩

/-! ### The object loop never merges, overwrites or drops entries -/

theorem objLoop_entries_preserved :
    ∀ (fuel : Nat) (ret : List (List Nat × Json)) (s : PState) (j : Json) (s1 : PState),
      parseCore fuel (PReq.objLoop ret) s = some (.ok (j, s1)) →
      ∃ tail, j = Json.Object (ret ++ tail) := by
  intro fuel
  induction fuel with
  | zero =>
    intro ret s j s1 h
    exact absurd h (by simp [parseCore])
  | succ n ih =>
    intro ret s j s1 h
    unfold parseCore at h
    dsimp only at h
    rcases hw : eatWhitespace n s with _ | t <;> rw [hw] at h
    · exact absurd h (by simp)
    dsimp only at h
    by_cases hre : ret.isEmpty <;> [rw [if_pos hre] at h; rw [if_neg hre] at h]
    · rcases hpk : peekNoeof t with e | ⟨c, s2⟩ <;> rw [hpk] at h
      · exact absurd h (by simp)
      dsimp only at h
      cases hdec : decide (c = 125) <;> rw [hdec] at h <;> dsimp only at h
      · repeat' split at h
        all_goals try simp only [Option.some.injEq, Except.ok.injEq, Prod.mk.injEq,
          reduceCtorEq] at h
        all_goals first
          | (obtain ⟨tail, htail⟩ := ih _ _ _ _ h
             exact ⟨_, by rw [htail, List.append_assoc]⟩)
          | (obtain ⟨h1, h2⟩ := h
             exact ⟨_, h1.symm⟩)
      · simp only [Option.some.injEq, Except.ok.injEq, Prod.mk.injEq] at h
        obtain ⟨h1, h2⟩ := h
        exact ⟨[], by rw [← h1, List.append_nil]⟩
    · dsimp only at h
      repeat' split at h
      all_goals try simp only [Option.some.injEq, Except.ok.injEq, Prod.mk.injEq,
        reduceCtorEq] at h
      all_goals first
        | (obtain ⟨tail, htail⟩ := ih _ _ _ _ h
           exact ⟨_, by rw [htail, List.append_assoc]⟩)
        | (obtain ⟨h1, h2⟩ := h
           exact ⟨_, h1.symm⟩)

/-- C1: parsing an object with the same key twice keeps both pairs as
separate entries in input order — the spec example yields exactly the
two entries for the key, neither merged nor dropped — and in general the
object loop only ever appends to the entries gathered so far, whatever
their keys: any successful run from an intermediate entry list returns
that list extended by a tail, so no earlier entry is merged, overwritten
or dropped. -/
theorem c1_duplicate_keys_preserved :
    jsonOf [123, 34, 107, 101, 121, 34, 58, 34, 118, 97, 108, 34, 44,
        34, 107, 101, 121, 34, 58, 34, 118, 97, 108, 50, 34, 125] =
      some (.ok (Json.Object [([107, 101, 121], Json.String [118, 97, 108]),
        ([107, 101, 121], Json.String [118, 97, 108, 50])])) ∧
    ∀ (fuel : Nat) (ret : List (List Nat × Json)) (s : PState) (j : Json) (s1 : PState),
      parseCore fuel (PReq.objLoop ret) s = some (.ok (j, s1)) →
      ∃ tail, j = Json.Object (ret ++ tail) :=
  ⟨rfl, objLoop_entries_preserved⟩

/-- Witness for C1: resuming the object loop with one entry already
collected, on the remaining input a-key colon 1 brace, returns that entry
extended by a tail. -/
theorem c1_duplicate_keys_preserved_witness :
    ∃ tail, Json.Object [([107], Json.Null), ([97], Json.Number [49])] =
      Json.Object ([([107], Json.Null)] ++ tail) :=
  c1_duplicate_keys_preserved.2 20 [([107], Json.Null)] (initState [34, 97, 34, 58, 49, 125])
    (Json.Object [([107], Json.Null), ([97], Json.Number [49])]) ⟨[], none, 1, 6⟩ rfl

/-- C4 (counterexample): the spec example string decodes to the nine
code points LF, CR, TAB, 7, 12, space, backslash, space, slash — the
escaped backslash and the escaped slash are separated by a space in the
input — so the eight-element sequence the claim lists, which omits that
interior space, is not the parse result. -/
theorem c4_counterexample :
    jsonOf [34, 92, 110, 92, 114, 92, 116, 92, 98, 92, 102, 32, 92, 92, 32, 92, 47, 34] =
      some (.ok (Json.String [10, 13, 9, 7, 12, 32, 92, 32, 47])) ∧
    [10, 13, 9, 7, 12, 32, 92, 32, 47] ≠ [10, 13, 9, 7, 12, 32, 92, 47] :=
  ⟨rfl, by decide⟩

/-- C4 (amended): each escape decodes as claimed — backslash-b to 7,
backslash-f to 12, backslash-n to LF, backslash-r to CR, backslash-t to
TAB, backslash-slash to slash, backslash-backslash to backslash and
backslash-quote to quote — and the spec example parses to the String
holding exactly LF, CR, TAB, 7, 12, space, backslash, space, slash
(with the space between the escaped backslash and slash included). -/
theorem c4_escape_decoding :
    jsonOf [34, 92, 98, 34] = some (.ok (Json.String [7])) ∧
    jsonOf [34, 92, 102, 34] = some (.ok (Json.String [12])) ∧
    jsonOf [34, 92, 110, 34] = some (.ok (Json.String [10])) ∧
    jsonOf [34, 92, 114, 34] = some (.ok (Json.String [13])) ∧
    jsonOf [34, 92, 116, 34] = some (.ok (Json.String [9])) ∧
    jsonOf [34, 92, 47, 34] = some (.ok (Json.String [47])) ∧
    jsonOf [34, 92, 92, 34] = some (.ok (Json.String [92])) ∧
    jsonOf [34, 92, 34, 34] = some (.ok (Json.String [34])) ∧
    jsonOf [34, 92, 110, 92, 114, 92, 116, 92, 98, 92, 102, 32, 92, 92, 32, 92, 47, 34] =
      some (.ok (Json.String [10, 13, 9, 7, 12, 32, 92, 32, 47])) :=
  ⟨rfl, rfl, rfl, rfl, rfl, rfl, rfl, rfl, rfl⟩

theorem decodeUtf16_some_paired :
    ∀ (n : Nat) (us : List Nat) (l : List Nat), us.length ≤ n → decodeUtf16 us = some l →
      PairedRun us := by
  intro n
  induction n with
  | zero =>
    intro us l hlen h
    cases us with
    | nil => exact .nil
    | cons u rest => simp at hlen
  | succ n ih =>
    intro us l hlen h
    match us with
    | [] => exact .nil
    | [u] =>
      unfold decodeUtf16 at h
      by_cases hu : u < 55296 ∨ 57344 ≤ u
      · exact .scalar u [] hu .nil
      · rw [if_neg hu] at h
        simp at h
    | u :: v :: rest =>
      unfold decodeUtf16 at h
      by_cases hu : u < 55296 ∨ 57344 ≤ u
      · rw [if_pos hu] at h
        rcases hd : decodeUtf16 (v :: rest) with _ | l2 <;> rw [hd] at h
        · simp at h
        · refine .scalar u (v :: rest) hu (ih (v :: rest) l2 ?_ hd)
          simp at hlen ⊢
          omega
      · rw [if_neg hu] at h
        by_cases hu2 : u < 56320
        · rw [if_pos hu2] at h
          by_cases hv : 56320 ≤ v ∧ v < 57344
          · rw [if_pos hv] at h
            rcases hd : decodeUtf16 rest with _ | l2 <;> rw [hd] at h
            · simp at h
            · refine .pair u v rest (by omega) hu2 hv.1 hv.2 (ih rest l2 ?_ hd)
              simp at hlen
              omega
          · rw [if_neg hv] at h
            simp at h
        · rw [if_neg hu2] at h
          simp at h

/-- C5: a contiguous run of unicode escapes is decoded as UTF-16 — the
escape pair d834 dd1e yields the single scalar 119070, that is U+1D11E;
a lone high surrogate d800 fails with UnpairedSurrogate, as does a run
pairing an ordinary scalar 0041 with a trailing lone surrogate d800;
and in general standard UTF-16 decoding of any run containing an
unpaired surrogate — any code-unit run outside the paired-run grammar —
has no result. -/
theorem c5_surrogate_pairs :
    jsonOf [34, 92, 117, 100, 56, 51, 52, 92, 117, 68, 68, 49, 69, 34] =
      some (.ok (Json.String [119070])) ∧
    jsonOf [34, 92, 117, 100, 56, 48, 48, 34] = some (.error ⟨1, 8, .UnpairedSurrogate⟩) ∧
    jsonOf [34, 92, 117, 48, 48, 52, 49, 92, 117, 100, 56, 48, 48, 34] =
      some (.error ⟨1, 14, .UnpairedSurrogate⟩) ∧
    ∀ us : List Nat, ¬ PairedRun us → decodeUtf16 us = none := by
  refine ⟨rfl, rfl, rfl, ?_⟩
  intro us hnp
  rcases hd : decodeUtf16 us with _ | l
  · rfl
  · exact absurd (decodeUtf16_some_paired us.length us l le_rfl hd) hnp

/-- Witness for C5: the two-unit run of the scalar 65 followed by the
lone high surrogate 55296 is outside the paired-run grammar, and
decoding it has no result. -/
theorem c5_surrogate_pairs_witness :
    ¬ PairedRun [65, 55296] ∧ decodeUtf16 [65, 55296] = none := by
  have hnp : ¬ PairedRun [65, 55296] := by
    intro h
    cases h with
    | scalar u rest hu hrest =>
      cases hrest with
      | scalar v rest2 hv hrest2 => omega
    | pair u v rest h1 h2 h3 h4 hrest => omega
  exact ⟨hnp, c5_surrogate_pairs.2.2.2 [65, 55296] hnp⟩

/-- C6: the number lexer rejects leading zeros — the inputs 0 0 and
0 1 2 3 fail with MalformedNumber both standalone and through the full
parser, the inputs 0 and 0 . 5 return exactly their own text, and in
general any digit fed to state ZeroStart fails with MalformedNumber. -/
theorem c6_no_leading_zeros :
    numLex [48, 48] = some (.error ⟨1, 2, .MalformedNumber⟩) ∧
    numLex [48, 49, 50, 51] = some (.error ⟨1, 2, .MalformedNumber⟩) ∧
    numLex [48] = some (.ok [48]) ∧
    numLex [48, 46, 53] = some (.ok [48, 46, 53]) ∧
    jsonOf [48, 48] = some (.error ⟨1, 2, .MalformedNumber⟩) ∧
    jsonOf [48, 49, 50, 51] = some (.error ⟨1, 2, .MalformedNumber⟩) ∧
    ∀ c : Nat, 48 ≤ c → c ≤ 57 → numStep .ZeroStart c = .fail .MalformedNumber :=
  ⟨rfl, rfl, rfl, rfl, rfl, rfl, fun _ h1 h2 => numStep_zeroStart_digit h1 h2⟩

/-- Witness for C6: the digit byte 57 fed to state ZeroStart fails with
MalformedNumber. -/
theorem c6_no_leading_zeros_witness : numStep .ZeroStart 57 = .fail .MalformedNumber :=
  c6_no_leading_zeros.2.2.2.2.2.2 57 (by decide) (by decide)

/-- C9: ending a number token while past Start never fails — the
non-JSON inputs 1 e, 1 e +, and 0 . are accepted, returning exactly
their own text both standalone and as Number through the parser, and in
general the loop succeeds at end of input or at a delimiter byte from
every state other than Start, returning the accumulated text. -/
theorem c9_lenient_number_endings :
    numLex [49, 101] = some (.ok [49, 101]) ∧
    numLex [49, 101, 43] = some (.ok [49, 101, 43]) ∧
    numLex [48, 46] = some (.ok [48, 46]) ∧
    jsonOf [49, 101] = some (.ok (Json.Number [49, 101])) ∧
    jsonOf [49, 101, 43] = some (.ok (Json.Number [49, 101, 43])) ∧
    jsonOf [48, 46] = some (.ok (Json.Number [48, 46])) ∧
    (∀ (fuel : Nat) (ret : List Nat) (st : NState) (s s1 : PState),
      peekB s = (none, s1) → st ≠ NState.Start →
      parseNumberLoop (fuel + 1) ret st s = some (.ok (ret, s1))) ∧
    (∀ (fuel : Nat) (ret : List Nat) (st : NState) (s s1 : PState) (c : Nat),
      peekB s = (some c, s1) → c ∈ delimBytes → st ≠ NState.Start →
      parseNumberLoop (fuel + 1) ret st s = some (.ok (ret, s1))) :=
  ⟨rfl, rfl, rfl, rfl, rfl, rfl,
    fun _ _ _ _ _ hp hs => parseNumberLoop_eoi hp hs,
    fun _ _ _ _ _ _ hp hc hs => parseNumberLoop_halt hp hc hs⟩

/-- Witness for C9: a loop in state InExp with text 1 e accumulated and
no input left succeeds, returning that text. -/
theorem c9_lenient_number_endings_witness :
    parseNumberLoop 1 [49, 101] .InExp (initState []) = some (.ok ([49, 101], initState [])) :=
  c9_lenient_number_endings.2.2.2.2.2.2.1 0 [49, 101] .InExp (initState []) (initState [])
    rfl (by decide)

/-! ### Whitespace skipping up to a non-whitespace byte -/

theorem eatWhitespace_skip :
    ∀ (ws : List Nat) (fuel l co c : Nat) (rest : List Nat),
      (∀ b ∈ ws, b = 32 ∨ b = 10 ∨ b = 13) →
      ¬(c = 32 ∨ c = 10 ∨ c = 13) → ws.length < fuel →
      ∃ l2 c2, eatWhitespace fuel ⟨ws ++ c :: rest, none, l, co⟩ = some ⟨rest, some c, l2, c2⟩ := by
  intro ws
  induction ws with
  | nil =>
    intro fuel l co c rest hws hc hlen
    obtain ⟨f, rfl⟩ : ∃ f, fuel = f + 1 := ⟨fuel - 1, by omega⟩
    refine ⟨l, co + 1, ?_⟩
    have hpk : peekB ⟨[] ++ c :: rest, none, l, co⟩ = (some c, ⟨rest, some c, l, co + 1⟩) := by
      unfold peekB next
      simp only [List.nil_append]
      rw [if_neg (show ¬ c = 10 by tauto)]
    unfold eatWhitespace
    rw [hpk]
    dsimp only
    rw [if_neg hc]
  | cons b ws ih =>
    intro fuel l co c rest hws hc hlen
    obtain ⟨f, rfl⟩ : ∃ f, fuel = f + 1 := ⟨fuel - 1, by omega⟩
    have hb := hws b (List.mem_cons_self b ws)
    have htail : ∀ x ∈ ws, x = 32 ∨ x = 10 ∨ x = 13 :=
      fun x hx => hws x (List.mem_cons_of_mem b hx)
    have hlen2 : ws.length < f := by simp at hlen; omega
    rcases hb with rfl | rfl | rfl
    · obtain ⟨l2, c2, hrec⟩ := ih f l (co + 1) c rest htail hc hlen2
      refine ⟨l2, c2, ?_⟩
      unfold eatWhitespace
      simp only [List.cons_append]
      have hpk : peekB ⟨32 :: (ws ++ c :: rest), none, l, co⟩ =
          (some 32, ⟨ws ++ c :: rest, some 32, l, co + 1⟩) := rfl
      rw [hpk]
      dsimp only
      rw [if_pos (by omega)]
      exact hrec
    · obtain ⟨l2, c2, hrec⟩ := ih f (l + 1) 0 c rest htail hc hlen2
      refine ⟨l2, c2, ?_⟩
      unfold eatWhitespace
      simp only [List.cons_append]
      have hpk : peekB ⟨10 :: (ws ++ c :: rest), none, l, co⟩ =
          (some 10, ⟨ws ++ c :: rest, some 10, l + 1, 0⟩) := rfl
      rw [hpk]
      dsimp only
      rw [if_pos (by omega)]
      exact hrec
    · obtain ⟨l2, c2, hrec⟩ := ih f l (co + 1) c rest htail hc hlen2
      refine ⟨l2, c2, ?_⟩
      unfold eatWhitespace
      simp only [List.cons_append]
      have hpk : peekB ⟨13 :: (ws ++ c :: rest), none, l, co⟩ =
          (some 13, ⟨ws ++ c :: rest, some 13, l, co + 1⟩) := rfl
      rw [hpk]
      dsimp only
      rw [if_pos (by omega)]
      exact hrec

/-- C8: an input whose first non-whitespace byte is an apostrophe is
dispatched to the string lexer with the apostrophe unconsumed, and the
lexer — which only recognises a double quote in state Start — fails
with ExpectedString; no apostrophe-delimited string ever parses. -/
theorem c8_apostrophe_never_parses :
    ∀ (ws rest : List Nat), (∀ b ∈ ws, b = 32 ∨ b = 10 ∨ b = 13) →
    ∃ l c, jsonOf (ws ++ 39 :: rest) = some (.error ⟨l, c, .ExpectedString⟩) := by
  intro ws rest hws
  obtain ⟨m, hm⟩ : ∃ m, 2 * (ws ++ 39 :: rest).length + 7 = m + 1 :=
    ⟨2 * (ws ++ 39 :: rest).length + 6, by omega⟩
  have hlen : ws.length < 2 * (ws ++ 39 :: rest).length + 7 := by
    simp [List.length_append]
    omega
  obtain ⟨l2, c2, hwsr⟩ :=
    eatWhitespace_skip ws (2 * (ws ++ 39 :: rest).length + 7) 1 0 39 rest hws (by decide) hlen
  have hpk : peekB ⟨rest, some 39, l2, c2⟩ = (some 39, ⟨rest, some 39, l2, c2⟩) := rfl
  have hstr : parseStringLoop (m + 1) [] SState.Start ⟨rest, some 39, l2, c2⟩ =
      some (.error ⟨l2, c2, .ExpectedString⟩) := by
    unfold parseStringLoop
    rw [hpk]
    norm_num
    rfl
  have hcore : parseCore (2 * (ws ++ 39 :: rest).length + 8) .val (initState (ws ++ 39 :: rest)) =
      some (.error ⟨l2, c2, .ExpectedString⟩) := by
    have h8 : 2 * (ws ++ 39 :: rest).length + 8 = (2 * (ws ++ 39 :: rest).length + 7) + 1 := by
      omega
    rw [h8]
    unfold parseCore
    rw [show initState (ws ++ 39 :: rest) = ⟨ws ++ 39 :: rest, none, 1, 0⟩ from rfl]
    rw [hwsr]
    dsimp only
    rw [hpk]
    dsimp only
    norm_num
    have hm2 : 2 * (ws.length + (rest.length + 1)) + 7 = m + 1 := by
      simp [List.length_append] at hm
      omega
    rw [hm2, hstr]
  refine ⟨l2, c2, ?_⟩
  unfold jsonOf jsonFromBytes
  rw [hcore]

/-- Witness for C8: a space followed by an apostrophe and a further byte
fails with ExpectedString. -/
theorem c8_apostrophe_never_parses_witness :
    ∃ l c, jsonOf ([32] ++ 39 :: [120]) = some (.error ⟨l, c, .ExpectedString⟩) :=
  c8_apostrophe_never_parses [32] [120] (by decide)

/-! ### The number grammar drives the lexer to acceptance -/

theorem foldNum_append :
    ∀ (xs ys : List Nat) (st : NState),
      foldNum st (xs ++ ys) = (foldNum st xs).bind (fun mid => foldNum mid ys) := by
  intro xs
  induction xs with
  | nil => intro ys st; rfl
  | cons a xs ih =>
    intro ys st
    rw [List.cons_append]
    rw [foldNum]
    conv_rhs => rw [foldNum]
    cases hsa : numStep st a with
    | cont st1 =>
      dsimp only
      exact ih ys st1
    | halt => rfl
    | fail e => rfl

theorem numStep_digit_keep {c : Nat} {st : NState} (h1 : 48 ≤ c) (h2 : c ≤ 57)
    (hs1 : st ≠ .Start) (hs2 : st ≠ .ZeroStart) : numStep st c = .cont st := by
  unfold numStep
  rw [if_neg (by omega), if_neg (by omega), if_pos (by omega), if_neg hs1, if_neg hs2]

theorem foldNum_digits :
    ∀ (ds : List Nat) (st : NState), (∀ c ∈ ds, isDigit c) →
      st ≠ .Start → st ≠ .ZeroStart → foldNum st ds = some st := by
  intro ds
  induction ds with
  | nil => intro st _ _ _; rfl
  | cons d ds ih =>
    intro st hds hs1 hs2
    have hd := hds d (List.mem_cons_self d ds)
    unfold foldNum
    rw [numStep_digit_keep hd.1 hd.2 hs1 hs2]
    exact ih st (fun c hc => hds c (List.mem_cons_of_mem d hc)) hs1 hs2

theorem grammar_foldNum {w : List Nat} (hg : jsonNumberGrammar w) :
    ∃ st, foldNum .Start w = some st ∧ st ≠ .Start := by
  obtain ⟨sign, intp, frac, expp, hw, hsign, hint, hfrac, hexp⟩ := hg
  have h1 : foldNum .Start sign = some .Start := by
    rcases hsign with rfl | rfl <;> rfl
  have h2 : ∃ stI, foldNum .Start intp = some stI ∧ (stI = .ZeroStart ∨ stI = .PreDecimal) := by
    rcases hint with rfl | ⟨d, ds, rfl, hd1, hd2, hds⟩
    · exact ⟨.ZeroStart, rfl, Or.inl rfl⟩
    · refine ⟨.PreDecimal, ?_, Or.inr rfl⟩
      have hstep : numStep .Start d = .cont .PreDecimal := by
        unfold numStep
        rw [if_neg (by omega), if_neg (by omega), if_pos (by omega), if_pos rfl,
          if_neg (by omega)]
      show foldNum .Start (d :: ds) = some .PreDecimal
      unfold foldNum
      rw [hstep]
      exact foldNum_digits ds .PreDecimal hds (by decide) (by decide)
  obtain ⟨stI, h2a, h2b⟩ := h2
  have h3 : ∃ stF, foldNum stI frac = some stF ∧
      (stF = .ZeroStart ∨ stF = .PreDecimal ∨ stF = .PostDecimal) := by
    rcases hfrac with rfl | ⟨ds, rfl, hne, hds⟩
    · exact ⟨stI, rfl, by rcases h2b with rfl | rfl; exact Or.inl rfl; exact Or.inr (Or.inl rfl)⟩
    · refine ⟨.PostDecimal, ?_, Or.inr (Or.inr rfl)⟩
      have hstep : numStep stI 46 = .cont .PostDecimal := by
        rcases h2b with rfl | rfl <;> rfl
      show foldNum stI (46 :: ds) = some .PostDecimal
      unfold foldNum
      rw [hstep]
      exact foldNum_digits ds .PostDecimal hds (by decide) (by decide)
  obtain ⟨stF, h3a, h3b⟩ := h3
  have h4 : ∃ stE, foldNum stF expp = some stE ∧ stE ≠ .Start := by
    rcases hexp with rfl | ⟨e, sg, ds, rfl, he, hsg, hne, hds⟩
    · refine ⟨stF, rfl, ?_⟩
      rcases h3b with rfl | rfl | rfl <;> decide
    · have hstep : numStep stF e = .cont .InExp := by
        rcases he with rfl | rfl <;> rcases h3b with rfl | rfl | rfl <;> rfl
      have hsgds : ∃ stE, foldNum .InExp (sg ++ ds) = some stE ∧ stE ≠ .Start := by
        rcases hsg with rfl | rfl | rfl
        · rw [List.nil_append]
          exact ⟨.InExp, foldNum_digits ds .InExp hds (by decide) (by decide), by decide⟩
        · refine ⟨.PastExp, ?_, by decide⟩
          show foldNum .InExp (43 :: ([] ++ ds)) = some .PastExp
          unfold foldNum
          rw [show numStep .InExp 43 = .cont .PastExp from rfl, List.nil_append]
          exact foldNum_digits ds .PastExp hds (by decide) (by decide)
        · refine ⟨.PastExp, ?_, by decide⟩
          show foldNum .InExp (45 :: ([] ++ ds)) = some .PastExp
          unfold foldNum
          rw [show numStep .InExp 45 = .cont .PastExp from rfl, List.nil_append]
          exact foldNum_digits ds .PastExp hds (by decide) (by decide)
      obtain ⟨stE, hE, hEne⟩ := hsgds
      refine ⟨stE, ?_, hEne⟩
      show foldNum stF (e :: (sg ++ ds)) = some stE
      unfold foldNum
      rw [hstep]
      exact hE
  obtain ⟨stE, h4a, h4b⟩ := h4
  refine ⟨stE, ?_, h4b⟩
  rw [hw, foldNum_append, foldNum_append, foldNum_append, h1, Option.some_bind, h2a,
    Option.some_bind, h3a, Option.some_bind]
  exact h4a

theorem peekB_cons :
    ∀ (d : Nat) (tl : List Nat) (l co : Nat),
      ∃ l2 c2, peekB ⟨d :: tl, none, l, co⟩ = (some d, ⟨tl, some d, l2, c2⟩) := by
  intro d tl l co
  by_cases hd : d = 10
  · subst hd
    exact ⟨l + 1, 0, rfl⟩
  · refine ⟨l, co + 1, ?_⟩
    unfold peekB next
    dsimp only
    rw [if_neg hd]

theorem parseNumberLoop_run :
    ∀ (w : List Nat) (fuel : Nat) (ret : List Nat) (st st2 : NState) (l co : Nat)
      (rest : List Nat),
      foldNum st w = some st2 → st2 ≠ .Start →
      (rest = [] ∨ ∃ d rest2, rest = d :: rest2 ∧ d ∈ delimBytes) →
      w.length < fuel →
      ∃ fin, parseNumberLoop fuel ret st ⟨w ++ rest, none, l, co⟩ =
        some (.ok (ret ++ w, fin)) := by
  intro w
  induction w with
  | nil =>
    intro fuel ret st st2 l co rest hfold hne hrest hlen
    obtain ⟨f, rfl⟩ : ∃ f, fuel = f + 1 := ⟨fuel - 1, by omega⟩
    have hst : st = st2 := by simpa [foldNum] using hfold
    subst hst
    rcases hrest with rfl | ⟨d, rest2, rfl, hd⟩
    · refine ⟨⟨[], none, l, co⟩, ?_⟩
      rw [List.nil_append, List.append_nil]
      exact parseNumberLoop_eoi rfl hne
    · obtain ⟨l2, c2, hpk⟩ := peekB_cons d rest2 l co
      refine ⟨⟨rest2, some d, l2, c2⟩, ?_⟩
      rw [List.nil_append, List.append_nil]
      exact parseNumberLoop_halt hpk hd hne
  | cons a w ih =>
    intro fuel ret st st2 l co rest hfold hne hrest hlen
    obtain ⟨f, rfl⟩ : ∃ f, fuel = f + 1 := ⟨fuel - 1, by omega⟩
    rw [foldNum] at hfold
    cases hsa : numStep st a with
    | halt =>
      rw [hsa] at hfold
      exact absurd hfold (by simp)
    | fail e =>
      rw [hsa] at hfold
      exact absurd hfold (by simp)
    | cont st1 =>
      rw [hsa] at hfold
      dsimp only at hfold
      obtain ⟨l2, c2, hpk⟩ := peekB_cons a (w ++ rest) l co
      have hlen2 : w.length < f := by simp at hlen; omega
      obtain ⟨fin, hrec⟩ := ih f (ret ++ [a]) st1 st2 l2 c2 rest hfold hne hrest hlen2
      refine ⟨fin, ?_⟩
      rw [List.cons_append]
      unfold parseNumberLoop
      rw [hpk]
      dsimp only
      rw [hsa]
      dsimp only
      rw [show (ret ++ [a]) ++ w = ret ++ (a :: w) from by
        rw [List.append_assoc]; rfl] at hrec
      exact hrec

/-- C7: every byte string matching the JSON number grammar exactly,
followed by end of input or a terminating delimiter byte, is accepted by
the number lexer, which returns that byte string unchanged, byte for
byte. -/
theorem c7_number_roundtrip :
    ∀ (w rest : List Nat), jsonNumberGrammar w →
      (rest = [] ∨ ∃ d rest2, rest = d :: rest2 ∧ d ∈ delimBytes) →
      numLex (w ++ rest) = some (.ok w) := by
  intro w rest hg hrest
  obtain ⟨st2, hfold, hne⟩ := grammar_foldNum hg
  have hlen : w.length < (w ++ rest).length + 2 := by
    simp [List.length_append]
    omega
  obtain ⟨fin, hrun⟩ :=
    parseNumberLoop_run w ((w ++ rest).length + 2) [] .Start st2 1 0 rest hfold hne hrest hlen
  unfold numLex numLexFull
  rw [show initState (w ++ rest) = ⟨w ++ rest, none, 1, 0⟩ from rfl, hrun]
  rw [List.nil_append]

/-- Witness for C7: the grammar string minus 1 0 dot 5 e plus 3,
followed by a comma, lexes to exactly itself. -/
theorem c7_number_roundtrip_witness :
    numLex ([45, 49, 48, 46, 53, 101, 43, 51] ++ [44]) =
      some (.ok [45, 49, 48, 46, 53, 101, 43, 51]) := by
  refine c7_number_roundtrip [45, 49, 48, 46, 53, 101, 43, 51] [44] ?_
    (Or.inr ⟨44, [], rfl, by decide⟩)
  refine ⟨[45], [49, 48], [46, 53], [101, 43, 51], by decide, Or.inr rfl, ?_, ?_, ?_⟩
  · exact Or.inr ⟨49, [48], rfl, by decide, by decide, by decide⟩
  · exact Or.inr ⟨[53], rfl, by decide, by decide⟩
  · exact Or.inr ⟨101, [43], [51], rfl, Or.inl rfl, Or.inr (Or.inl rfl), by decide, by decide⟩

/-! ### Input extension: a completed parse never looks past its value -/

theorem remaining_extend (s : PState) (J : List Nat) :
    remaining (extendInput s J) = remaining s ++ J := by
  unfold remaining extendInput
  dsimp only
  rw [List.append_assoc]

theorem eat_extend (s : PState) (J : List Nat) :
    eat (extendInput s J) = extendInput (eat s) J := rfl

theorem remaining_nil_spec {s : PState} (h : remaining s = []) :
    s.peek = none ∧ s.input = [] := by
  rcases s with ⟨inp, pk, l, co⟩
  cases pk with
  | some c => simp [remaining, peekList] at h
  | none =>
    simp only [remaining, peekList, List.nil_append] at h
    exact ⟨rfl, h⟩

theorem peekB_rem_nil {s : PState} (h : remaining s = []) : peekB s = (none, s) := by
  obtain ⟨h1, h2⟩ := remaining_nil_spec h
  rcases s with ⟨inp, pk, l, co⟩
  dsimp only at h1 h2
  subst h1
  subst h2
  rfl

theorem peekB_none_state {s s1 : PState} (h : peekB s = (none, s1)) :
    s1 = s ∧ remaining s = [] := by
  rcases s with ⟨inp, pk, l, co⟩
  cases pk with
  | some c => simp [peekB, next] at h
  | none =>
    cases inp with
    | nil =>
      refine ⟨?_, rfl⟩
      simpa [peekB, next] using h.symm
    | cons b rest =>
      exfalso
      by_cases hb : b = 10 <;> simp [peekB, next, hb] at h

theorem peekB_some_rem {s s1 : PState} {c : Nat} (h : peekB s = (some c, s1)) :
    remaining s ≠ [] := by
  intro hr
  rw [peekB_rem_nil hr] at h
  simp at h

theorem peekB_some_rem1 {s s1 : PState} {c : Nat} (h : peekB s = (some c, s1)) :
    remaining s1 ≠ [] := by
  have := peekB_some_peek h
  rcases s1 with ⟨inp, pk, l, co⟩
  dsimp only at this
  subst this
  simp [remaining, peekList]

theorem peekB_extend_some {s s1 : PState} {c : Nat} (J : List Nat)
    (h : peekB s = (some c, s1)) :
    peekB (extendInput s J) = (some c, extendInput s1 J) := by
  rcases s with ⟨inp, pk, l, co⟩
  cases pk with
  | some ch =>
    have hh : peekB (⟨inp, some ch, l, co⟩ : PState) = (some ch, ⟨inp, some ch, l, co⟩) := rfl
    rw [hh] at h
    simp only [Prod.mk.injEq, Option.some.injEq] at h
    obtain ⟨rfl, rfl⟩ := h
    rfl
  | none =>
    cases inp with
    | nil => simp [peekB, next] at h
    | cons b rest =>
      by_cases hb : b = 10
      · subst hb
        have hh : peekB (⟨10 :: rest, none, l, co⟩ : PState) =
            (some 10, ⟨rest, some 10, l + 1, 0⟩) := rfl
        rw [hh] at h
        simp only [Prod.mk.injEq, Option.some.injEq] at h
        obtain ⟨rfl, rfl⟩ := h
        rfl
      · have hh : peekB (⟨b :: rest, none, l, co⟩ : PState) =
            (some b, ⟨rest, some b, l, co + 1⟩) := by
          unfold peekB next
          dsimp only
          rw [if_neg hb]
        rw [hh] at h
        simp only [Prod.mk.injEq, Option.some.injEq] at h
        obtain ⟨rfl, rfl⟩ := h
        show peekB ⟨b :: (rest ++ J), none, l, co⟩ = _
        unfold peekB next
        dsimp only
        rw [if_neg hb]
        rfl

theorem peekB_extend_pull {s : PState} (h : remaining s = []) (w : Nat) (rest : List Nat) :
    ∃ s2, peekB (extendInput s (w :: rest)) = (some w, s2) ∧ remaining s2 = w :: rest := by
  obtain ⟨h1, h2⟩ := remaining_nil_spec h
  rcases s with ⟨inp, pk, l, co⟩
  dsimp only at h1 h2
  subst h1
  subst h2
  by_cases hw : w = 10
  · subst hw
    exact ⟨⟨rest, some 10, l + 1, 0⟩, rfl, rfl⟩
  · refine ⟨⟨rest, some w, l, co + 1⟩, ?_, rfl⟩
    unfold peekB next
    dsimp only [extendInput]
    simp only [List.nil_append]
    rw [if_neg hw]

theorem peekNoeof_ok_rem {s s1 : PState} {c : Nat} (h : peekNoeof s = .ok (c, s1)) :
    remaining s ≠ [] := by
  unfold peekNoeof at h
  rcases hp : peekB s with ⟨_ | d, t⟩ <;> rw [hp] at h
  · simp at h
  · exact peekB_some_rem hp

theorem peekNoeof_extend {s s1 : PState} {c : Nat} (J : List Nat)
    (h : peekNoeof s = .ok (c, s1)) :
    peekNoeof (extendInput s J) = .ok (c, extendInput s1 J) := by
  unfold peekNoeof at h ⊢
  rcases hp : peekB s with ⟨_ | d, t⟩ <;> rw [hp] at h
  · simp at h
  · dsimp only at h
    simp only [Except.ok.injEq, Prod.mk.injEq] at h
    obtain ⟨rfl, rfl⟩ := h
    rw [peekB_extend_some J hp]

theorem readHexChar_extend {s s1 : PState} {c : Nat} (J : List Nat)
    (h : readHexChar s = .ok (c, s1)) :
    readHexChar (extendInput s J) = .ok (c, extendInput s1 J) := by
  unfold readHexChar at h ⊢
  rcases hp : peekNoeof s with e | ⟨d, t⟩ <;> rw [hp] at h
  · simp at h
  · dsimp only at h
    simp only [Except.ok.injEq, Prod.mk.injEq] at h
    obtain ⟨rfl, h2⟩ := h
    rw [peekNoeof_extend J hp]
    dsimp only
    rw [← h2, eat_extend]

theorem eatWhitespace_rem_nil {n : Nat} {s t : PState} (h : eatWhitespace n s = some t)
    (hr : remaining s = []) : t = s := by
  cases n with
  | zero => simp [eatWhitespace] at h
  | succ n =>
    unfold eatWhitespace at h
    rw [peekB_rem_nil hr] at h
    simp only [Option.some.injEq] at h
    exact h.symm

theorem eatWhitespace_extend :
    ∀ (n : Nat) (s t : PState) (m : Nat) (J : List Nat),
      eatWhitespace n s = some t → n ≤ m → remaining t ≠ [] →
      eatWhitespace m (extendInput s J) = some (extendInput t J) := by
  intro n
  induction n with
  | zero => intro s t m J h _ _; simp [eatWhitespace] at h
  | succ n ih =>
    intro s t m J h hnm hrt
    obtain ⟨m1, rfl⟩ : ∃ m1, m = m1 + 1 := ⟨m - 1, by omega⟩
    unfold eatWhitespace at h ⊢
    rcases hp : peekB s with ⟨_ | c, s1⟩ <;> rw [hp] at h
    · obtain ⟨rfl, hrem⟩ := peekB_none_state hp
      dsimp only at h
      simp only [Option.some.injEq] at h
      subst h
      exact absurd hrem hrt
    · rw [peekB_extend_some J hp]
      dsimp only at h ⊢
      by_cases hc : c = 32 ∨ c = 10 ∨ c = 13
      · rw [if_pos hc] at h ⊢
        rw [eat_extend]
        exact ih (eat s1) t m1 J h (by omega) hrt
      · rw [if_neg hc] at h ⊢
        simp only [Option.some.injEq] at h
        rw [h]

theorem eatIdent_extend :
    ∀ (lit : List Nat) (s t : PState) (J : List Nat),
      eatIdent lit s = .ok t → eatIdent lit (extendInput s J) = .ok (extendInput t J) := by
  intro lit
  induction lit with
  | nil =>
    intro s t J h
    simp only [eatIdent, Except.ok.injEq] at h
    subst h
    rfl
  | cons c cs ih =>
    intro s t J h
    unfold eatIdent at h ⊢
    rcases hp : peekB s with ⟨_ | d, s1⟩ <;> rw [hp] at h
    · simp at h
    · rw [peekB_extend_some J hp]
      dsimp only at h ⊢
      by_cases hd : d = c
      · rw [if_pos hd] at h ⊢
        rw [eat_extend]
        exact ih (eat s1) t J h
      · rw [if_neg hd] at h
        simp at h

theorem wsBytes_sub_delim {w : Nat} (h : w ∈ wsBytes) : w ∈ delimBytes := by
  simp only [wsBytes, List.mem_cons, List.not_mem_nil, or_false] at h
  rcases h with rfl | rfl | rfl <;> decide

theorem parseNumberLoop_extend :
    ∀ (n : Nat) (ret : List Nat) (st : NState) (s : PState) (r : List Nat) (s1 : PState)
      (m : Nat) (J : List Nat),
      parseNumberLoop n ret st s = some (.ok (r, s1)) → n ≤ m →
      (remaining s1 ≠ [] →
        parseNumberLoop m ret st (extendInput s J) = some (.ok (r, extendInput s1 J))) ∧
      (remaining s1 = [] → ∀ w rest, J = w :: rest → w ∈ delimBytes →
        ∃ s2, parseNumberLoop m ret st (extendInput s J) = some (.ok (r, s2)) ∧
          remaining s2 = w :: rest) := by
  intro n
  induction n with
  | zero => intro ret st s r s1 m J h _; simp [parseNumberLoop] at h
  | succ n ih =>
    intro ret st s r s1 m J h hnm
    obtain ⟨m1, rfl⟩ : ∃ m1, m = m1 + 1 := ⟨m - 1, by omega⟩
    unfold parseNumberLoop at h
    rcases hp : peekB s with ⟨_ | c, t⟩ <;> rw [hp] at h
    · obtain ⟨rfl, hrem⟩ := peekB_none_state hp
      dsimp only at h
      by_cases hst : st = .Start
      · rw [if_pos hst] at h; simp at h
      · rw [if_neg hst] at h
        simp only [Option.some.injEq, Except.ok.injEq, Prod.mk.injEq] at h
        obtain ⟨rfl, rfl⟩ := h
        constructor
        · intro hrt
          exact absurd hrem hrt
        · intro _ w rest hJ hw
          subst hJ
          obtain ⟨s2, hpk2, hrem2⟩ := peekB_extend_pull hrem w rest
          refine ⟨s2, ?_, hrem2⟩
          unfold parseNumberLoop
          rw [hpk2]
          dsimp only
          rw [numStep_halt_of_delim hw]
          dsimp only
          rw [if_neg hst]
    · dsimp only at h
      cases hns : numStep st c with
      | fail e => rw [hns] at h; simp at h
      | halt =>
        rw [hns] at h
        dsimp only at h
        by_cases hst : st = .Start
        · rw [if_pos hst] at h; simp at h
        · rw [if_neg hst] at h
          simp only [Option.some.injEq, Except.ok.injEq, Prod.mk.injEq] at h
          obtain ⟨rfl, rfl⟩ := h
          constructor
          · intro _
            unfold parseNumberLoop
            rw [peekB_extend_some J hp]
            dsimp only
            rw [hns]
            dsimp only
            rw [if_neg hst]
          · intro hre
            exact absurd hre (peekB_some_rem1 hp)
      | cont st2 =>
        rw [hns] at h
        dsimp only at h
        have hrec := ih (ret ++ [c]) st2 (eat t) r s1 m1 J h (by omega)
        constructor
        · intro hrt
          unfold parseNumberLoop
          rw [peekB_extend_some J hp]
          dsimp only
          rw [hns]
          dsimp only
          rw [eat_extend]
          exact hrec.1 hrt
        · intro hre w rest hJ hw
          obtain ⟨s2, hrun, hrem2⟩ := hrec.2 hre w rest hJ hw
          refine ⟨s2, ?_, hrem2⟩
          unfold parseNumberLoop
          rw [peekB_extend_some J hp]
          dsimp only
          rw [hns]
          dsimp only
          rw [eat_extend]
          exact hrun

theorem parseStringLoop_ok_rem {n : Nat} {ret : List Nat} {st : SState} {s : PState}
    {r : List Nat × PState} (h : parseStringLoop n ret st s = some (.ok r)) :
    remaining s ≠ [] := by
  intro hr
  cases n with
  | zero => simp [parseStringLoop] at h
  | succ n =>
    unfold parseStringLoop at h
    rw [peekB_rem_nil hr] at h
    cases st <;> simp at h

theorem uLoop_extend :
    ∀ (n : Nat) (acc : List Nat) (s : PState) (units : List Nat) (st2 : SState) (s2 : PState)
      (m : Nat) (J : List Nat),
      uLoop n acc s = some (.ok (units, st2, s2)) → n ≤ m → remaining s2 ≠ [] →
      uLoop m acc (extendInput s J) = some (.ok (units, st2, extendInput s2 J)) := by
  intro n
  induction n with
  | zero => intro acc s units st2 s2 m J h _ _; simp [uLoop] at h
  | succ n ih =>
    intro acc s units st2 s2 m J h hnm hrt
    obtain ⟨m1, rfl⟩ : ∃ m1, m = m1 + 1 := ⟨m - 1, by omega⟩
    unfold uLoop at h ⊢
    dsimp only at h ⊢
    rw [eat_extend]
    rcases h1 : readHexChar (eat s) with e | ⟨c1, s1⟩ <;> rw [h1] at h
    · simp at h
    rw [readHexChar_extend J h1]
    dsimp only at h ⊢
    rcases h2 : readHexChar s1 with e | ⟨c2, t2⟩ <;> rw [h2] at h
    · simp at h
    rw [readHexChar_extend J h2]
    dsimp only at h ⊢
    rcases h3 : readHexChar t2 with e | ⟨c3, t3⟩ <;> rw [h3] at h
    · simp at h
    rw [readHexChar_extend J h3]
    dsimp only at h ⊢
    rcases h4 : readHexChar t3 with e | ⟨c4, t4⟩ <;> rw [h4] at h
    · simp at h
    rw [readHexChar_extend J h4]
    dsimp only at h ⊢
    rcases h5 : fromStrRadix16 [c1, c2, c3, c4] with _ | u <;> rw [h5] at h
    · simp at h
    dsimp only at h ⊢
    rcases h6 : peekB t4 with ⟨p5, t5⟩
    rw [h6] at h
    dsimp only at h
    by_cases h92 : p5 = some 92
    · subst h92
      rw [if_pos rfl] at h
      rw [peekB_extend_some J h6]
      dsimp only
      rw [if_pos rfl, eat_extend]
      rcases h7 : peekB (eat t5) with ⟨p7, t7⟩
      rw [h7] at h
      dsimp only at h
      by_cases h117 : p7 ≠ some 117
      · rw [if_pos h117] at h
        simp only [Option.some.injEq, Except.ok.injEq, Prod.mk.injEq] at h
        obtain ⟨hu, hst, hs⟩ := h
        subst hu
        subst hst
        subst hs
        cases p7 with
        | none =>
          obtain ⟨rfl, hrem⟩ := peekB_none_state h7
          exact absurd hrem hrt
        | some d =>
          rw [peekB_extend_some J h7]
          dsimp only
          rw [if_pos h117]
      · push_neg at h117
        subst h117
        rw [if_neg (by simp)] at h
        rw [peekB_extend_some J h7]
        dsimp only
        rw [if_neg (by simp)]
        exact ih (acc ++ [u]) t7 units st2 s2 m1 J h (by omega) hrt
    · rw [if_neg h92] at h
      simp only [Option.some.injEq, Except.ok.injEq, Prod.mk.injEq] at h
      obtain ⟨hu, hst, hs⟩ := h
      subst hu
      subst hst
      subst hs
      cases p5 with
      | none =>
        obtain ⟨rfl, hrem⟩ := peekB_none_state h6
        exact absurd hrem hrt
      | some d =>
        rw [peekB_extend_some J h6]
        dsimp only
        rw [if_neg h92]

theorem parseStringLoop_extend :
    ∀ (n : Nat) (ret : List Nat) (st : SState) (s : PState) (r : List Nat) (s1 : PState)
      (m : Nat) (J : List Nat),
      parseStringLoop n ret st s = some (.ok (r, s1)) → n ≤ m →
      parseStringLoop m ret st (extendInput s J) = some (.ok (r, extendInput s1 J)) := by
  intro n
  induction n with
  | zero => intro ret st s r s1 m J h _; simp [parseStringLoop] at h
  | succ n ih =>
    intro ret st s r s1 m J h hnm
    obtain ⟨m1, rfl⟩ : ∃ m1, m = m1 + 1 := ⟨m - 1, by omega⟩
    unfold parseStringLoop at h ⊢
    rcases hp : peekB s with ⟨_ | c, t⟩ <;> rw [hp] at h
    · dsimp only at h
      cases st <;> simp at h
    · rw [peekB_extend_some J hp]
      dsimp only at h ⊢
      by_cases h34 : c = 34
      · rw [if_pos h34] at h ⊢
        cases st with
        | Start =>
          rw [eat_extend]
          exact ih _ _ _ _ _ _ _ h (by omega)
        | Scanning =>
          simp only [Option.some.injEq, Except.ok.injEq, Prod.mk.injEq] at h
          obtain ⟨rfl, rfl⟩ := h
          rw [eat_extend]
        | Escaping =>
          rw [eat_extend]
          exact ih _ _ _ _ _ _ _ h (by omega)
        | Done => simp at h
      · rw [if_neg h34] at h ⊢
        by_cases h92 : c = 92
        · rw [if_pos h92] at h ⊢
          cases st with
          | Start => simp at h
          | Scanning =>
            rw [eat_extend]
            exact ih _ _ _ _ _ _ _ h (by omega)
          | Escaping =>
            rw [eat_extend]
            exact ih _ _ _ _ _ _ _ h (by omega)
          | Done => simp at h
        · rw [if_neg h92] at h ⊢
          cases st with
          | Start => simp at h
          | Scanning =>
            rw [eat_extend]
            exact ih _ _ _ _ _ _ _ h (by omega)
          | Done => simp at h
          | Escaping =>
            dsimp only at h ⊢
            by_cases hb : c = 98
            · rw [if_pos hb] at h ⊢
              rw [eat_extend]
              exact ih _ _ _ _ _ _ _ h (by omega)
            rw [if_neg hb] at h ⊢
            by_cases hf : c = 102
            · rw [if_pos hf] at h ⊢
              rw [eat_extend]
              exact ih _ _ _ _ _ _ _ h (by omega)
            rw [if_neg hf] at h ⊢
            by_cases hn2 : c = 110
            · rw [if_pos hn2] at h ⊢
              rw [eat_extend]
              exact ih _ _ _ _ _ _ _ h (by omega)
            rw [if_neg hn2] at h ⊢
            by_cases hr2 : c = 114
            · rw [if_pos hr2] at h ⊢
              rw [eat_extend]
              exact ih _ _ _ _ _ _ _ h (by omega)
            rw [if_neg hr2] at h ⊢
            by_cases ht2 : c = 116
            · rw [if_pos ht2] at h ⊢
              rw [eat_extend]
              exact ih _ _ _ _ _ _ _ h (by omega)
            rw [if_neg ht2] at h ⊢
            by_cases hs2 : c = 47
            · rw [if_pos hs2] at h ⊢
              rw [eat_extend]
              exact ih _ _ _ _ _ _ _ h (by omega)
            rw [if_neg hs2] at h ⊢
            by_cases hu2 : c = 117
            · rw [if_pos hu2] at h ⊢
              rcases hu : uLoop n [] t with _ | e | ⟨units, st2, t2⟩ <;> rw [hu] at h
              · simp at h
              · simp at h
              · dsimp only at h
                rcases hdec : decodeUtf16 units with _ | chars <;> rw [hdec] at h
                · simp at h
                · dsimp only at h
                  have hrem : remaining t2 ≠ [] := parseStringLoop_ok_rem h
                  rw [uLoop_extend n [] t units st2 t2 m1 J hu (by omega) hrem]
                  dsimp only
                  rw [hdec]
                  dsimp only
                  exact ih _ _ _ _ _ _ _ h (by omega)
            · rw [if_neg hu2] at h
              simp at h

theorem parseCore_val_ok_rem {n : Nat} {s : PState} {jr : Json × PState}
    (h : parseCore n .val s = some (.ok jr)) : remaining s ≠ [] := by
  intro hr
  cases n with
  | zero => simp [parseCore] at h
  | succ n =>
    unfold parseCore at h
    rcases hw : eatWhitespace n s with _ | t <;> rw [hw] at h
    · simp at h
    · dsimp only at h
      have ht := eatWhitespace_rem_nil hw hr
      subst ht
      rw [peekB_rem_nil hr] at h
      simp at h

theorem parseCore_extend :
    ∀ n : Nat,
      (∀ (s : PState) (j : Json) (s1 : PState) (m : Nat) (J : List Nat),
        parseCore n .val s = some (.ok (j, s1)) → n ≤ m →
        (remaining s1 ≠ [] →
          parseCore m .val (extendInput s J) = some (.ok (j, extendInput s1 J))) ∧
        (remaining s1 = [] → ∀ w rest, J = w :: rest → w ∈ wsBytes →
          ∃ s2, parseCore m .val (extendInput s J) = some (.ok (j, s2)) ∧
            remaining s2 = w :: rest)) ∧
      (∀ (ret : List Json) (s : PState) (j : Json) (s1 : PState) (m : Nat) (J : List Nat),
        parseCore n (.arrLoop ret) s = some (.ok (j, s1)) → n ≤ m →
        parseCore m (.arrLoop ret) (extendInput s J) = some (.ok (j, extendInput s1 J))) ∧
      (∀ (ret : List (List Nat × Json)) (s : PState) (j : Json) (s1 : PState) (m : Nat)
        (J : List Nat),
        parseCore n (.objLoop ret) s = some (.ok (j, s1)) → n ≤ m →
        parseCore m (.objLoop ret) (extendInput s J) = some (.ok (j, extendInput s1 J))) := by
  intro n
  induction n with
  | zero =>
    refine ⟨?_, ?_, ?_⟩
    · intro s j s1 m J h
      simp [parseCore] at h
    · intro ret s j s1 m J h hnm
      simp [parseCore] at h
    · intro ret s j s1 m J h hnm
      simp [parseCore] at h
  | succ n ih =>
    refine ⟨?_, ?_, ?_⟩
    · -- value
      intro s j s1 m J h hnm
      obtain ⟨m1, rfl⟩ : ∃ m1, m = m1 + 1 := ⟨m - 1, by omega⟩
      unfold parseCore at h ⊢
      rcases hw : eatWhitespace n s with _ | t <;> rw [hw] at h
      · simp at h
      dsimp only at h
      rcases hpk : peekB t with ⟨_ | c, t2⟩ <;> rw [hpk] at h
      · simp at h
      dsimp only at h
      have hrt : remaining t ≠ [] := peekB_some_rem hpk
      rw [eatWhitespace_extend n s t m1 J hw (by omega) hrt]
      dsimp only
      rw [peekB_extend_some J hpk]
      dsimp only
      by_cases hc1 : c = 110
      · rw [if_pos hc1] at h ⊢
        rcases hid : eatIdent [110, 117, 108, 108] t2 with e | t3 <;> rw [hid] at h
        · simp at h
        dsimp only at h
        simp only [Option.some.injEq, Except.ok.injEq, Prod.mk.injEq] at h
        obtain ⟨rfl, rfl⟩ := h
        rw [eatIdent_extend _ _ _ J hid]
        refine ⟨fun _ => rfl, ?_⟩
        intro hre w rest hJ hw2
        subst hJ
        exact ⟨extendInput t3 (w :: rest), rfl, by rw [remaining_extend, hre]; rfl⟩
      rw [if_neg hc1] at h ⊢
      by_cases hc2 : c = 116
      · rw [if_pos hc2] at h ⊢
        rcases hid : eatIdent [116, 114, 117, 101] t2 with e | t3 <;> rw [hid] at h
        · simp at h
        dsimp only at h
        simp only [Option.some.injEq, Except.ok.injEq, Prod.mk.injEq] at h
        obtain ⟨rfl, rfl⟩ := h
        rw [eatIdent_extend _ _ _ J hid]
        refine ⟨fun _ => rfl, ?_⟩
        intro hre w rest hJ hw2
        subst hJ
        exact ⟨extendInput t3 (w :: rest), rfl, by rw [remaining_extend, hre]; rfl⟩
      rw [if_neg hc2] at h ⊢
      by_cases hc3 : c = 102
      · rw [if_pos hc3] at h ⊢
        rcases hid : eatIdent [102, 97, 108, 115, 101] t2 with e | t3 <;> rw [hid] at h
        · simp at h
        dsimp only at h
        simp only [Option.some.injEq, Except.ok.injEq, Prod.mk.injEq] at h
        obtain ⟨rfl, rfl⟩ := h
        rw [eatIdent_extend _ _ _ J hid]
        refine ⟨fun _ => rfl, ?_⟩
        intro hre w rest hJ hw2
        subst hJ
        exact ⟨extendInput t3 (w :: rest), rfl, by rw [remaining_extend, hre]; rfl⟩
      rw [if_neg hc3] at h ⊢
      by_cases hc4 : c = 45 ∨ (48 ≤ c ∧ c ≤ 57)
      · rw [if_pos hc4] at h ⊢
        rcases hnum : parseNumberLoop n [] .Start t2 with _ | e | ⟨txt, t3⟩ <;> rw [hnum] at h
        · simp at h
        · simp at h
        dsimp only at h
        simp only [Option.some.injEq, Except.ok.injEq, Prod.mk.injEq] at h
        obtain ⟨rfl, rfl⟩ := h
        have hne := parseNumberLoop_extend n [] .Start t2 txt t3 m1 J hnum (by omega)
        constructor
        · intro hrt3
          rw [hne.1 hrt3]
        · intro hre w rest hJ hw2
          obtain ⟨s2, hrun, hrem2⟩ := hne.2 hre w rest hJ (wsBytes_sub_delim hw2)
          rw [hrun]
          exact ⟨s2, rfl, hrem2⟩
      rw [if_neg hc4] at h ⊢
      by_cases hc5 : c = 34 ∨ c = 39
      · rw [if_pos hc5] at h ⊢
        rcases hstr : parseStringLoop n [] .Start t2 with _ | e | ⟨txt, t3⟩ <;> rw [hstr] at h
        · simp at h
        · simp at h
        dsimp only at h
        simp only [Option.some.injEq, Except.ok.injEq, Prod.mk.injEq] at h
        obtain ⟨rfl, rfl⟩ := h
        rw [parseStringLoop_extend n [] .Start t2 txt t3 m1 J hstr (by omega)]
        refine ⟨fun _ => rfl, ?_⟩
        intro hre w rest hJ hw2
        subst hJ
        exact ⟨extendInput t3 (w :: rest), rfl, by rw [remaining_extend, hre]; rfl⟩
      rw [if_neg hc5] at h ⊢
      by_cases hc6 : c = 91
      · rw [if_pos hc6] at h ⊢
        have harr := ih.2.1 [] (eat t2) j s1 m1 J h (by omega)
        rw [eat_extend]
        refine ⟨fun _ => harr, ?_⟩
        intro hre w rest hJ hw2
        subst hJ
        exact ⟨extendInput s1 (w :: rest), harr, by rw [remaining_extend, hre]; rfl⟩
      rw [if_neg hc6] at h ⊢
      by_cases hc7 : c = 123
      · rw [if_pos hc7] at h ⊢
        have hobj := ih.2.2 [] (eat t2) j s1 m1 J h (by omega)
        rw [eat_extend]
        refine ⟨fun _ => hobj, ?_⟩
        intro hre w rest hJ hw2
        subst hJ
        exact ⟨extendInput s1 (w :: rest), hobj, by rw [remaining_extend, hre]; rfl⟩
      rw [if_neg hc7] at h
      simp at h
    · -- array loop
      intro ret s j s1 m J h hnm
      obtain ⟨m1, rfl⟩ : ∃ m1, m = m1 + 1 := ⟨m - 1, by omega⟩
      unfold parseCore at h ⊢
      rcases hw : eatWhitespace n s with _ | t <;> rw [hw] at h
      · simp at h
      dsimp only at h ⊢
      by_cases hre : ret.isEmpty
      · rw [if_pos hre] at h
        rcases hpk : peekNoeof t with e | ⟨c, t2⟩ <;> rw [hpk] at h
        · simp at h
        dsimp only at h
        have hrt : remaining t ≠ [] := peekNoeof_ok_rem hpk
        rw [eatWhitespace_extend n s t m1 J hw (by omega) hrt]
        dsimp only
        rw [if_pos hre, peekNoeof_extend J hpk]
        dsimp only
        by_cases hc93a : c = 93
        case neg =>
          rw [decide_eq_false hc93a] at h ⊢
          rw [if_neg Bool.false_ne_true] at h ⊢
          rcases hv : parseCore n PReq.val t2 with _ | e | ⟨v, t3⟩ <;> rw [hv] at h
          · simp at h
          · simp at h
          dsimp only at h
          rcases hw2 : eatWhitespace n t3 with _ | t4 <;> rw [hw2] at h
          · simp at h
          dsimp only at h
          rcases hpk2 : peekNoeof t4 with e | ⟨c2, t5⟩ <;> rw [hpk2] at h
          · simp at h
          dsimp only at h
          have hrt4 : remaining t4 ≠ [] := peekNoeof_ok_rem hpk2
          have hrt3 : remaining t3 ≠ [] := by
            intro hnil
            have heq := eatWhitespace_rem_nil hw2 hnil
            subst heq
            exact hrt4 hnil
          rw [(ih.1 t2 v t3 m1 J hv (by omega)).1 hrt3]
          dsimp only
          rw [eatWhitespace_extend n t3 t4 m1 J hw2 (by omega) hrt4]
          dsimp only
          rw [peekNoeof_extend J hpk2]
          dsimp only
          by_cases hc44 : c2 = 44
          · rw [if_pos hc44] at h ⊢
            rw [eat_extend]
            exact ih.2.1 (ret ++ [v]) (eat t5) j s1 m1 J h (by omega)
          rw [if_neg hc44] at h ⊢
          by_cases hc93 : c2 = 93
          · rw [if_pos hc93] at h ⊢
            simp only [Option.some.injEq, Except.ok.injEq, Prod.mk.injEq] at h
            obtain ⟨rfl, rfl⟩ := h
            rw [eat_extend]
          · rw [if_neg hc93] at h
            simp at h
        case pos =>
          rw [decide_eq_true hc93a] at h ⊢
          rw [if_pos rfl] at h ⊢
          dsimp only at h ⊢
          rcases hpk2 : peekNoeof t2 with e | ⟨c2, t5⟩ <;> rw [hpk2] at h
          · simp at h
          dsimp only at h
          rw [peekNoeof_extend J hpk2]
          dsimp only
          by_cases hc44 : c2 = 44
          · rw [if_pos hc44] at h ⊢
            rw [eat_extend]
            exact ih.2.1 ret (eat t5) j s1 m1 J h (by omega)
          rw [if_neg hc44] at h ⊢
          by_cases hc93 : c2 = 93
          · rw [if_pos hc93] at h ⊢
            simp only [Option.some.injEq, Except.ok.injEq, Prod.mk.injEq] at h
            obtain ⟨rfl, rfl⟩ := h
            rw [eat_extend]
          · rw [if_neg hc93] at h
            simp at h
      · rw [if_neg hre] at h
        dsimp only at h
        rw [if_neg Bool.false_ne_true] at h
        rcases hv : parseCore n PReq.val t with _ | e | ⟨v, t3⟩ <;> rw [hv] at h
        · simp at h
        · simp at h
        dsimp only at h
        have hrt : remaining t ≠ [] := parseCore_val_ok_rem hv
        rw [eatWhitespace_extend n s t m1 J hw (by omega) hrt]
        dsimp only
        rw [if_neg hre]
        dsimp only
        rw [if_neg Bool.false_ne_true]
        rcases hw2 : eatWhitespace n t3 with _ | t4 <;> rw [hw2] at h
        · simp at h
        dsimp only at h
        rcases hpk2 : peekNoeof t4 with e | ⟨c2, t5⟩ <;> rw [hpk2] at h
        · simp at h
        dsimp only at h
        have hrt4 : remaining t4 ≠ [] := peekNoeof_ok_rem hpk2
        have hrt3 : remaining t3 ≠ [] := by
          intro hnil
          have heq := eatWhitespace_rem_nil hw2 hnil
          subst heq
          exact hrt4 hnil
        rw [(ih.1 t v t3 m1 J hv (by omega)).1 hrt3]
        dsimp only
        rw [eatWhitespace_extend n t3 t4 m1 J hw2 (by omega) hrt4]
        dsimp only
        rw [peekNoeof_extend J hpk2]
        dsimp only
        by_cases hc44 : c2 = 44
        · rw [if_pos hc44] at h ⊢
          rw [eat_extend]
          exact ih.2.1 (ret ++ [v]) (eat t5) j s1 m1 J h (by omega)
        rw [if_neg hc44] at h ⊢
        by_cases hc93 : c2 = 93
        · rw [if_pos hc93] at h ⊢
          simp only [Option.some.injEq, Except.ok.injEq, Prod.mk.injEq] at h
          obtain ⟨rfl, rfl⟩ := h
          rw [eat_extend]
        · rw [if_neg hc93] at h
          simp at h
    · -- object loop
      intro ret s j s1 m J h hnm
      obtain ⟨m1, rfl⟩ : ∃ m1, m = m1 + 1 := ⟨m - 1, by omega⟩
      unfold parseCore at h ⊢
      rcases hw : eatWhitespace n s with _ | t <;> rw [hw] at h
      · simp at h
      dsimp only at h ⊢
      by_cases hre : ret.isEmpty
      · rw [if_pos hre] at h
        rcases hpk : peekNoeof t with e | ⟨c, t2⟩ <;> rw [hpk] at h
        · simp at h
        dsimp only at h
        have hrt : remaining t ≠ [] := peekNoeof_ok_rem hpk
        rw [eatWhitespace_extend n s t m1 J hw (by omega) hrt]
        dsimp only
        rw [if_pos hre, peekNoeof_extend J hpk]
        dsimp only
        by_cases hc125a : c = 125
        case neg =>
          rw [decide_eq_false hc125a] at h ⊢
          dsimp only at h ⊢
          rcases hkey : parseStringLoop n [] SState.Start t2 with _ | e | ⟨key, t3⟩ <;>
            rw [hkey] at h
          · simp at h
          · simp at h
          dsimp only at h
          rw [parseStringLoop_extend n [] SState.Start t2 key t3 m1 J hkey (by omega)]
          dsimp only
          rcases hw2 : eatWhitespace n t3 with _ | t4 <;> rw [hw2] at h
          · simp at h
          dsimp only at h
          rcases hpk2 : peekNoeof t4 with e | ⟨sep, t5⟩ <;> rw [hpk2] at h
          · simp at h
          dsimp only at h
          have hrt4 : remaining t4 ≠ [] := peekNoeof_ok_rem hpk2
          have hrt3 : remaining t3 ≠ [] := by
            intro hnil
            have heq := eatWhitespace_rem_nil hw2 hnil
            subst heq
            exact hrt4 hnil
          rw [eatWhitespace_extend n t3 t4 m1 J hw2 (by omega) hrt4]
          dsimp only
          rw [peekNoeof_extend J hpk2]
          dsimp only
          by_cases hsep : sep = 58
          · rw [if_pos hsep] at h ⊢
            rcases hw3 : eatWhitespace n (eat t5) with _ | t6 <;> rw [hw3] at h
            · simp at h
            dsimp only at h
            rcases hv : parseCore n PReq.val t6 with _ | e | ⟨v, t7⟩ <;> rw [hv] at h
            · simp at h
            · simp at h
            dsimp only at h
            have hrt6 : remaining t6 ≠ [] := parseCore_val_ok_rem hv
            rw [eat_extend, eatWhitespace_extend n (eat t5) t6 m1 J hw3 (by omega) hrt6]
            dsimp only
            rcases hw4 : eatWhitespace n t7 with _ | t8 <;> rw [hw4] at h
            · simp at h
            dsimp only at h
            rcases hpk3 : peekNoeof t8 with e | ⟨c2, t9⟩ <;> rw [hpk3] at h
            · simp at h
            dsimp only at h
            have hrt8 : remaining t8 ≠ [] := peekNoeof_ok_rem hpk3
            have hrt7 : remaining t7 ≠ [] := by
              intro hnil
              have heq := eatWhitespace_rem_nil hw4 hnil
              subst heq
              exact hrt8 hnil
            rw [(ih.1 t6 v t7 m1 J hv (by omega)).1 hrt7]
            dsimp only
            rw [eatWhitespace_extend n t7 t8 m1 J hw4 (by omega) hrt8]
            dsimp only
            rw [peekNoeof_extend J hpk3]
            dsimp only
            by_cases hc44 : c2 = 44
            · rw [if_pos hc44] at h ⊢
              rw [eat_extend]
              exact ih.2.2 (ret ++ [(key, v)]) (eat t9) j s1 m1 J h (by omega)
            rw [if_neg hc44] at h ⊢
            by_cases hc125 : c2 = 125
            · rw [if_pos hc125] at h ⊢
              simp only [Option.some.injEq, Except.ok.injEq, Prod.mk.injEq] at h
              obtain ⟨rfl, rfl⟩ := h
              rw [eat_extend]
            · rw [if_neg hc125] at h
              simp at h
          · rw [if_neg hsep] at h
            simp at h
        case pos =>
          rw [decide_eq_true hc125a] at h ⊢
          dsimp only at h ⊢
          simp only [Option.some.injEq, Except.ok.injEq, Prod.mk.injEq] at h
          obtain ⟨rfl, rfl⟩ := h
          rw [eat_extend]
      · rw [if_neg hre] at h
        dsimp only at h
        rcases hkey : parseStringLoop n [] SState.Start t with _ | e | ⟨key, t3⟩ <;>
          rw [hkey] at h
        · simp at h
        · simp at h
        dsimp only at h
        have hrt : remaining t ≠ [] := parseStringLoop_ok_rem hkey
        rw [eatWhitespace_extend n s t m1 J hw (by omega) hrt]
        dsimp only
        rw [if_neg hre]
        dsimp only
        rw [parseStringLoop_extend n [] SState.Start t key t3 m1 J hkey (by omega)]
        dsimp only
        rcases hw2 : eatWhitespace n t3 with _ | t4 <;> rw [hw2] at h
        · simp at h
        dsimp only at h
        rcases hpk2 : peekNoeof t4 with e | ⟨sep, t5⟩ <;> rw [hpk2] at h
        · simp at h
        dsimp only at h
        have hrt4 : remaining t4 ≠ [] := peekNoeof_ok_rem hpk2
        have hrt3 : remaining t3 ≠ [] := by
          intro hnil
          have heq := eatWhitespace_rem_nil hw2 hnil
          subst heq
          exact hrt4 hnil
        rw [eatWhitespace_extend n t3 t4 m1 J hw2 (by omega) hrt4]
        dsimp only
        rw [peekNoeof_extend J hpk2]
        dsimp only
        by_cases hsep : sep = 58
        · rw [if_pos hsep] at h ⊢
          rcases hw3 : eatWhitespace n (eat t5) with _ | t6 <;> rw [hw3] at h
          · simp at h
          dsimp only at h
          rcases hv : parseCore n PReq.val t6 with _ | e | ⟨v, t7⟩ <;> rw [hv] at h
          · simp at h
          · simp at h
          dsimp only at h
          have hrt6 : remaining t6 ≠ [] := parseCore_val_ok_rem hv
          rw [eat_extend, eatWhitespace_extend n (eat t5) t6 m1 J hw3 (by omega) hrt6]
          dsimp only
          rcases hw4 : eatWhitespace n t7 with _ | t8 <;> rw [hw4] at h
          · simp at h
          dsimp only at h
          rcases hpk3 : peekNoeof t8 with e | ⟨c2, t9⟩ <;> rw [hpk3] at h
          · simp at h
          dsimp only at h
          have hrt8 : remaining t8 ≠ [] := peekNoeof_ok_rem hpk3
          have hrt7 : remaining t7 ≠ [] := by
            intro hnil
            have heq := eatWhitespace_rem_nil hw4 hnil
            subst heq
            exact hrt8 hnil
          rw [(ih.1 t6 v t7 m1 J hv (by omega)).1 hrt7]
          dsimp only
          rw [eatWhitespace_extend n t7 t8 m1 J hw4 (by omega) hrt8]
          dsimp only
          rw [peekNoeof_extend J hpk3]
          dsimp only
          by_cases hc44 : c2 = 44
          · rw [if_pos hc44] at h ⊢
            rw [eat_extend]
            exact ih.2.2 (ret ++ [(key, v)]) (eat t9) j s1 m1 J h (by omega)
          rw [if_neg hc44] at h ⊢
          by_cases hc125 : c2 = 125
          · rw [if_pos hc125] at h ⊢
            simp only [Option.some.injEq, Except.ok.injEq, Prod.mk.injEq] at h
            obtain ⟨rfl, rfl⟩ := h
            rw [eat_extend]
          · rw [if_neg hc125] at h
            simp at h
        · rw [if_neg hsep] at h
          simp at h

/-- C10: parse consumes exactly one JSON value and never looks past it —
whenever an input parses to a value that consumes it entirely, the same
input followed by a whitespace byte and then arbitrary further bytes
parses to the same tree, with the whitespace byte and everything after
it left unconsumed and unexamined. -/
theorem c10_trailing_bytes_ignored :
    ∀ (v : List Nat) (j : Json) (s1 : PState),
      jsonFromBytes v = some (.ok (j, s1)) → remaining s1 = [] →
      ∀ (w : Nat) (rest : List Nat), w ∈ wsBytes →
      ∃ s2, jsonFromBytes (v ++ w :: rest) = some (.ok (j, s2)) ∧
        remaining s2 = w :: rest := by
  intro v j s1 h hrem w rest hw
  unfold jsonFromBytes at h ⊢
  have hinit : initState (v ++ w :: rest) = extendInput (initState v) (w :: rest) := rfl
  rw [hinit]
  have hfuel : 2 * v.length + 8 ≤ 2 * (v ++ w :: rest).length + 8 := by
    simp [List.length_append]
  exact ((parseCore_extend (2 * v.length + 8)).1 (initState v) j s1
    (2 * (v ++ w :: rest).length + 8) (w :: rest) h hfuel).2 hrem w rest rfl hw

/-- Witness for C10: the input t r u e followed by a space and an x
parses to the Bool true with the space and the x left pending. -/
theorem c10_trailing_bytes_ignored_witness :
    ∃ s2, jsonFromBytes [116, 114, 117, 101, 32, 120] = some (.ok (Json.Bool true, s2)) ∧
      remaining s2 = [32, 120] :=
  c10_trailing_bytes_ignored [116, 114, 117, 101] (Json.Bool true) ⟨[], none, 1, 4⟩ rfl rfl
    32 [120] (by decide)
